import Mathlib

/-!
The WHERE-clause translator `togoquexpr`.

A shallow embedding of `togoquexpr.go`.  Go strings are modelled as lists of
characters (`Str`); the inputs considered are valid UTF-8, for which the
byte-level functions of package `strings` and the rune-level regular
expressions of package `regexp` agree with the character-level definitions
below.

The first part embeds the path codec (`preprocessJsonPaths`,
`reverseJsonPath`), the second the AST translator (`toGoquExpr`,
`handleComparison`, `extractExpression`, `extractValue`, `extractInValues`).
-/

namespace Togoquexpr

/-- Go `string`, as the list of its characters. -/
abbrev Str := List Char

/-! ## Regular expressions of `preprocessJsonPaths` -/

/-- The class `\w` of Go's `regexp` (RE2 syntax): `[0-9A-Za-z_]`, ASCII only. -/
def isWord (c : Char) : Bool := c.isAlphanum || c == '_'

/-- The class `\d` of Go's `regexp`: `[0-9]`, ASCII only. -/
def isDigit (c : Char) : Bool := c.isDigit

/-- Length of the longest prefix of `s` whose characters satisfy `p`: what a
greedy `p*` consumes. -/
def spanLen (p : Char → Bool) : Str → Nat
  | [] => 0
  | c :: t => if p c then spanLen p t + 1 else 0

/-- One iteration of the group `(?:\.\w+|\[[^\]]+\])` at the start of `s`:
the number of characters it consumes, or `none` when it does not match.
The two alternatives start with different characters, and in each the greedy
repetition has a single way to succeed: `\w+` followed by anything takes the
whole run of word characters, and `[^\]]+` followed by `\]` must stop at the
first `]`. -/
def matchGroup : Str → Option Nat
  | [] => none
  | c :: t =>
    if c = '.' then
      let n := spanLen isWord t
      if n = 0 then none else some (n + 1)
    else if c = '[' then
      let n := spanLen (fun x => x != ']') t
      if n = 0 then none
      else if (t.drop n).head? = some ']' then some (n + 2) else none
    else none

/-- Number of characters consumed by the greedy repetition `(?:…)+` of the
group. `skip` counts the characters of `s` that belong to the iteration
already matched; with `skip = 0` a new iteration is tried at the head of `s`.
The result is `0` when no iteration matches. -/
def matchGroups : Nat → Str → Nat
  | _, [] => 0
  | k + 1, _ :: t => matchGroups k t + 1
  | 0, c :: t =>
    match matchGroup (c :: t) with
    | some (n + 1) => matchGroups n t + 1
    | _ => 0

/-- Leftmost-first match of `(\w+)((?:\.\w+|\[[^\]]+\])+)` anchored at the
start of `s`: the length of the match, or `none`. The greedy `\w+` takes the
whole run of word characters; giving characters back cannot help, since the
group would then have to start at a word character. Every repetition is
greedy and the expression ends with the repetition, so the first match the
backtracking order finds is the one taking every iteration as far as it
goes. -/
def matchAt (s : Str) : Option Nat :=
  let w := spanLen isWord s
  if w = 0 then none
  else
    let g := matchGroups 0 (s.drop w)
    if g = 0 then none else some (w + g)

/-- Whether `^\d+\.\d+$` matches `s` (`regexp.MatchString`). -/
def isFloat (s : Str) : Bool :=
  let n := spanLen isDigit s
  n != 0 &&
    match s.drop n with
    | c :: t => c == '.' && t != [] && t.all isDigit
    | [] => false

/-- `strings.ReplaceAll(s, old, new)` for a one-character `old`. -/
def replaceChar (old : Char) (new : Str) (s : Str) : Str :=
  s.flatMap (fun c => if c = old then new else [c])

/-- The function passed to `ReplaceAllStringFunc`: a float is returned as it
is; otherwise `.` and `[` become `__` and `]` is deleted. -/
def replaceMatch (m : Str) : Str :=
  if isFloat m then m
  else
    let processed := replaceChar '.' ['_', '_'] m
    let processed := replaceChar '[' ['_', '_'] processed
    replaceChar ']' [] processed

/-- `re.ReplaceAllStringFunc(s, replaceMatch)`: successive non-overlapping
leftmost matches are replaced, the text between them is copied. `skip` counts
the characters of `s` still covered by the match just replaced. (The
expression never matches the empty string.) -/
def replaceAllFunc : Nat → Str → Str
  | _, [] => []
  | k + 1, _ :: t => replaceAllFunc k t
  | 0, c :: t =>
    match matchAt (c :: t) with
    | some (n + 1) => replaceMatch ((c :: t).take (n + 1)) ++ replaceAllFunc n t
    | _ => c :: replaceAllFunc 0 t

/-- `preprocessJsonPaths` converts JSON array notation to a parseable format,
e.g. `meta.alfa[0][1].gamma` to `meta__alfa__0__1__gamma`. -/
def preprocessJsonPaths (whereStr : Str) : Str :=
  replaceAllFunc 0 whereStr

/-! ## `reverseJsonPath` -/

/-- The separator `"__"`. -/
def sep : Str := ['_', '_']

/-- `strings.Split(s, "__")`: the pieces between successive non-overlapping
occurrences of the separator, found left to right. -/
def splitSep : Str → List Str
  | [] => [[]]
  | [c] => [[c]]
  | c :: d :: t =>
    if c = '_' ∧ d = '_' then [] :: splitSep t
    else
      match splitSep (d :: t) with
      | p :: ps => (c :: p) :: ps
      | [] => [[c]]

/-- Value of a string of decimal digits. -/
def digitsVal (s : Str) : Nat :=
  s.foldl (fun n c => 10 * n + (c.toNat - '0'.toNat)) 0

/-- `strconv.ParseInt(s, 10, 64)`: an optional sign followed by one or more
decimal digits, the value within the signed 64-bit range; `none` stands for
the syntax and range errors. -/
def parseInt64 (s : Str) : Option Int :=
  let neg := s.head? = some '-'
  let body := if s.head? = some '-' ∨ s.head? = some '+' then s.tail else s
  if body = [] ∨ ¬ body.all isDigit = true then none
  else
    let un := digitsVal body
    if neg then (if un ≤ 2 ^ 63 then some (-(un : Int)) else none)
    else (if un < 2 ^ 63 then some (un : Int) else none)

/-- `strconv.Atoi(s)` with a 64-bit `int`: the same language and range as
`ParseInt(s, 10, 64)` (its fast path for short strings accepts the same
strings). -/
def atoi (s : Str) : Option Int := parseInt64 s

/-- One round of the loop over `parts`: an array index is attached to the
last element of `result` (and dropped when `result` is empty), a field name is
appended. -/
def foldPart (result : List Str) (part : Str) : List Str :=
  if (atoi part).isSome then
    match result.getLast? with
    | some last => result.dropLast ++ [last ++ ['['] ++ part ++ [']']]
    | none => result
  else result ++ [part]

/-- `strings.Join(elems, ".")`. -/
def joinDot : List Str → Str
  | [] => []
  | [a] => a
  | a :: b :: t => a ++ '.' :: joinDot (b :: t)

/-- `reverseJsonPath` converts the preprocessed path back to original
format: the JSON column, the path inside it, and whether it is a JSON path. -/
def reverseJsonPath (processedPath : Str) : List Str → Str × Str × Bool
  | [] => (processedPath, [], false)
  | jsonCol :: rest =>
    if (jsonCol ++ sep).isPrefixOf processedPath then
      let pathPart := processedPath.drop (jsonCol ++ sep).length
      let parts := splitSep pathPart
      let result := parts.foldl foldPart []
      (jsonCol, joinDot result, true)
    else if processedPath = jsonCol then (jsonCol, [], true)
    else reverseJsonPath processedPath rest

/-! ## The expression AST of the parser and the predicates of the builder -/

/-- `sqlparser.ValType`, the kind of an `SQLVal` literal. -/
inductive ValType
  | StrVal | IntVal | FloatVal | HexNum | HexVal | ValArg | BitVal
  deriving DecidableEq

/-- `sqlparser.Expr`: the dynamic types the translator has a case for, the
nodes arithmetic and negation parse to, and `other T` for every remaining
dynamic type, `T` being what `%T` prints for it. Fields the translator never
reads (the qualifier of a column, the escape of a comparison, the arguments of
a function call) are left out. -/
inductive Expr
  | AndExpr (left right : Expr)
  | OrExpr (left right : Expr)
  | NotExpr (expr : Expr)
  | ParenExpr (expr : Expr)
  | ComparisonExpr (operator : Str) (left right : Expr)
  | ColName (name : Str)
  | SQLVal (type : ValType) (val : Str)
  | NullVal
  | BoolVal (b : Bool)
  | ValTuple (exprs : List Expr)
  | FuncExpr (name : Str)
  | BinaryExpr (operator : Str) (left right : Expr)
  | UnaryExpr (operator : Str) (expr : Expr)
  | other (goType : Str)

/-- What `%T` prints for a node. -/
def Expr.goType : Expr → Str
  | .AndExpr _ _ => "*sqlparser.AndExpr".toList
  | .OrExpr _ _ => "*sqlparser.OrExpr".toList
  | .NotExpr _ => "*sqlparser.NotExpr".toList
  | .ParenExpr _ => "*sqlparser.ParenExpr".toList
  | .ComparisonExpr _ _ _ => "*sqlparser.ComparisonExpr".toList
  | .ColName _ => "*sqlparser.ColName".toList
  | .SQLVal _ _ => "*sqlparser.SQLVal".toList
  | .NullVal => "*sqlparser.NullVal".toList
  | .BoolVal _ => "*sqlparser.BoolVal".toList
  | .ValTuple _ => "sqlparser.ValTuple".toList
  | .FuncExpr _ => "*sqlparser.FuncExpr".toList
  | .BinaryExpr _ _ _ => "*sqlparser.BinaryExpr".toList
  | .UnaryExpr _ _ => "*sqlparser.UnaryExpr".toList
  | .other t => t

/-! The comparison operators of `sqlparser` (`ComparisonExpr.Operator`). -/

def EqualStr : Str := "=".toList
def LessThanStr : Str := "<".toList
def GreaterThanStr : Str := ">".toList
def LessEqualStr : Str := "<=".toList
def GreaterEqualStr : Str := ">=".toList
def NotEqualStr : Str := "!=".toList
def NullSafeEqualStr : Str := "<=>".toList
def InStr : Str := "in".toList
def NotInStr : Str := "not in".toList
def LikeStr : Str := "like".toList
def NotLikeStr : Str := "not like".toList
def RegexpStr : Str := "regexp".toList
def NotRegexpStr : Str := "not regexp".toList

/-- The errors of the translator, one constructor for each format string
passed to `fmt.Errorf`. -/
inductive Err
  /-- `unsupported expression type: %T` -/
  | unsupportedExpressionType (goType : Str)
  /-- `unsupported operator: %s` -/
  | unsupportedOperator (operator : Str)
  /-- `LIKE pattern must be a string` -/
  | likePatternMustBeString
  /-- `functions are not allowed` -/
  | functionsNotAllowed
  /-- `unsupported left-hand expression type: %T` -/
  | unsupportedLeftHand (goType : Str)
  /-- `column names are not allowed as values` -/
  | columnNamesNotAllowed
  /-- `invalid integer value: %s` -/
  | invalidInteger (val : Str)
  /-- `invalid float value: %s` -/
  | invalidFloat (val : Str)
  /-- `unsupported value type: %v` -/
  | unsupportedValueType (type : ValType)
  /-- `IN clause requires a list of values` -/
  | inClauseRequiresList
  deriving DecidableEq

/-- The values `extractValue` returns (`interface{}`): a `string`, an `int64`,
a `float64`, a `bool` or `nil`. The type `F` stands for `float64`. -/
inductive Value (F : Type)
  | str (s : Str)
  | int (n : Int)
  | float (x : F)
  | bool (b : Bool)
  | null
  deriving DecidableEq

/-- An argument of `goqu.L`: one value, or one slice of values. -/
inductive Arg (F : Type)
  | val (v : Value F)
  | slice (vs : List (Value F))
  deriving DecidableEq

/-- The `exp.Expression`s the translator builds: the comparisons of a column
`goqu.C(col)`, the literal `goqu.L(sql, args...)`, and the combinators
`goqu.And(l, r)` and `goqu.Or(l, r)`. -/
inductive Pred (F : Type)
  | Eq (col : Str) (v : Value F)
  | Neq (col : Str) (v : Value F)
  | Lt (col : Str) (v : Value F)
  | Gt (col : Str) (v : Value F)
  | Lte (col : Str) (v : Value F)
  | Gte (col : Str) (v : Value F)
  | Like (col : Str) (pattern : Str)
  | In (col : Str) (vals : List (Value F))
  | L (sql : Str) (args : List (Arg F))
  | And (left right : Pred F)
  | Or (left right : Pred F)
  deriving DecidableEq

/-- Equality of results is decidable when it is for errors and values. -/
instance instDecidableEqExcept {ε α : Type} [DecidableEq ε] [DecidableEq α] :
    DecidableEq (Except ε α)
  | .ok a, .ok b => if h : a = b then isTrue (by rw [h]) else isFalse (by simpa using h)
  | .error a, .error b => if h : a = b then isTrue (by rw [h]) else isFalse (by simpa using h)
  | .ok _, .error _ => isFalse (by simp)
  | .error _, .ok _ => isFalse (by simp)

/-! ## The translator -/

set_option linter.unusedVariables false

section Translator

variable {F : Type}

/-- `convertToClickhousePath`: `fmt.Sprintf("'$.%s'", path)`. -/
def convertToClickhousePath (path : Str) : Str :=
  "'$.".toList ++ path ++ "'".toList

/-- `extractExpression`: the left-hand side of a comparison, as the column
name or the JSON extraction call, and whether it is a JSON path. -/
def extractExpression (jsonColumns : List Str) : Expr → Except Err (Str × Bool)
  | .ColName colName =>
    match reverseJsonPath colName jsonColumns with
    | (jsonCol, path, true) =>
      if path = [] then
        .ok ("JSONExtractRaw(".toList ++ jsonCol ++ ")".toList, true)
      else
        let clickhousePath := convertToClickhousePath path
        .ok ("JSONExtractRaw(".toList ++ jsonCol ++ ", ".toList ++ clickhousePath
              ++ ")".toList, true)
    | (_, _, false) => .ok (colName, false)
  | .FuncExpr _ => .error .functionsNotAllowed
  | expr => .error (.unsupportedLeftHand expr.goType)

/-- `extractValue`: the Go value of a literal on the right-hand side.
`parseFloat` stands for `strconv.ParseFloat(s, 64)`, `none` for its error. -/
def extractValue (parseFloat : Str → Option F) (jsonColumns : List Str) :
    Expr → Except Err (Value F)
  | .ColName _ => .error .columnNamesNotAllowed
  | .SQLVal type val =>
    match type with
    | .StrVal => .ok (.str val)
    | .IntVal =>
      match parseInt64 val with
      | some n => .ok (.int n)
      | none => .error (.invalidInteger val)
    | .FloatVal =>
      match parseFloat val with
      | some x => .ok (.float x)
      | none => .error (.invalidFloat val)
    | t => .error (.unsupportedValueType t)
  | .NullVal => .ok .null
  | .BoolVal b => .ok (.bool b)
  | .FuncExpr _ => .error .functionsNotAllowed
  | expr => .error (.unsupportedExpressionType expr.goType)

/-- The loop of `extractInValues` over the elements of a tuple: the values in
order, or the first error. -/
def extractTuple (parseFloat : Str → Option F) (jsonColumns : List Str) :
    List Expr → Except Err (List (Value F))
  | [] => .ok []
  | val :: rest =>
    match extractValue parseFloat jsonColumns val with
    | .error err => .error err
    | .ok v =>
      match extractTuple parseFloat jsonColumns rest with
      | .error err => .error err
      | .ok values => .ok (v :: values)

/-- `extractInValues`: the values of the right-hand side of `IN`. -/
def extractInValues (parseFloat : Str → Option F) (jsonColumns : List Str) :
    Expr → Except Err (List (Value F))
  | .ValTuple e => extractTuple parseFloat jsonColumns e
  | .ParenExpr e => extractInValues parseFloat jsonColumns e
  | expr =>
    match extractValue parseFloat jsonColumns expr with
    | .error _ => .error .inClauseRequiresList
    | .ok val => .ok [val]

/-- `handleComparison` for the node `ComparisonExpr operator left right`. -/
def handleComparison (parseFloat : Str → Option F) (jsonColumns : List Str)
    (operator : Str) (left right : Expr) : Except Err (Pred F) :=
  match extractExpression jsonColumns left with
  | .error err => .error err
  | .ok (leftExpr, leftIsJson) =>
    if operator = InStr then
      match extractInValues parseFloat jsonColumns right with
      | .error err => .error err
      | .ok values =>
        if leftIsJson then .ok (.L (leftExpr ++ " IN ?".toList) [.slice values])
        else .ok (.In leftExpr values)
    else
      match extractValue parseFloat jsonColumns right with
      | .error err => .error err
      | .ok rightVal =>
        if leftIsJson then
          if operator = EqualStr then .ok (.L (leftExpr ++ " = ?".toList) [.val rightVal])
          else if operator = NotEqualStr then
            .ok (.L (leftExpr ++ " != ?".toList) [.val rightVal])
          else if operator = LessThanStr then
            .ok (.L (leftExpr ++ " < ?".toList) [.val rightVal])
          else if operator = GreaterThanStr then
            .ok (.L (leftExpr ++ " > ?".toList) [.val rightVal])
          else if operator = LessEqualStr then
            .ok (.L (leftExpr ++ " <= ?".toList) [.val rightVal])
          else if operator = GreaterEqualStr then
            .ok (.L (leftExpr ++ " >= ?".toList) [.val rightVal])
          else if operator = LikeStr then
            .ok (.L (leftExpr ++ " LIKE ?".toList) [.val rightVal])
          else .error (.unsupportedOperator operator)
        else
          if operator = EqualStr then .ok (.Eq leftExpr rightVal)
          else if operator = NotEqualStr then .ok (.Neq leftExpr rightVal)
          else if operator = LessThanStr then .ok (.Lt leftExpr rightVal)
          else if operator = GreaterThanStr then .ok (.Gt leftExpr rightVal)
          else if operator = LessEqualStr then .ok (.Lte leftExpr rightVal)
          else if operator = GreaterEqualStr then .ok (.Gte leftExpr rightVal)
          else if operator = LikeStr then
            match rightVal with
            | .str pattern => .ok (.Like leftExpr pattern)
            | _ => .error .likePatternMustBeString
          else .error (.unsupportedOperator operator)

/-- `toGoquExpr`: the predicate of a boolean expression. -/
def toGoquExpr (parseFloat : Str → Option F) (jsonColumns : List Str) :
    Expr → Except Err (Pred F)
  | .ComparisonExpr operator left right =>
    handleComparison parseFloat jsonColumns operator left right
  | .AndExpr l r =>
    match toGoquExpr parseFloat jsonColumns l with
    | .error err => .error err
    | .ok left =>
      match toGoquExpr parseFloat jsonColumns r with
      | .error err => .error err
      | .ok right => .ok (.And left right)
  | .OrExpr l r =>
    match toGoquExpr parseFloat jsonColumns l with
    | .error err => .error err
    | .ok left =>
      match toGoquExpr parseFloat jsonColumns r with
      | .error err => .error err
      | .ok right => .ok (.Or left right)
  | .ParenExpr e => toGoquExpr parseFloat jsonColumns e
  | expr => .error (.unsupportedExpressionType expr.goType)

/-- What `sqlparser.Parse` returns for a statement that parses: a `SELECT`
with its `WHERE` expression, or a statement of another kind. -/
inductive Stmt
  | Select (whereExpr : Expr)
  | otherStmt

/-- The errors of `AddWhereClause`. -/
inductive AddErr
  /-- `invalid query: %v` around the error of the parser -/
  | parse (msg : Str)
  /-- `invalid query` -/
  | notSelect
  /-- `invalid query: %v` around the error of the translator -/
  | translate (err : Err)
  deriving DecidableEq

/-- `AddWhereClause`. The parser is a parameter: `parse s` stands for
`sqlparser.Parse("SELECT * FROM t WHERE " + s)`. A dataset is modelled by the
list of the predicates added to its `WHERE` clause, `ds.Where(e)` appending
one. -/
def AddWhereClause (parse : Str → Except Str Stmt) (parseFloat : Str → Option F)
    (ds : List (Pred F)) (jsonColumns : List Str) (whereStr : Str) :
    Except AddErr (List (Pred F)) :=
  let processedWhere := preprocessJsonPaths whereStr
  match parse processedWhere with
  | .error err => .error (.parse err)
  | .ok .otherStmt => .error .notSelect
  | .ok (.Select whereExpr) =>
    match toGoquExpr parseFloat jsonColumns whereExpr with
    | .error err => .error (.translate err)
    | .ok goquExpr => .ok (ds ++ [goquExpr])

end Translator

/-! ## Notions the properties are stated with -/

/-- A literal node: a string, number, boolean or null literal. -/
def isLiteral : Expr → Bool
  | .SQLVal _ _ => true
  | .NullVal => true
  | .BoolVal _ => true
  | _ => false

/-- A column reference. -/
def isColName : Expr → Bool
  | .ColName _ => true
  | _ => false

/-- The nodes that stand as values in an `IN` list: the elements of the tuple
(inside any parentheses), or the single bare node. -/
def inListNodes : Expr → List Expr
  | .ValTuple exprs => exprs
  | .ParenExpr e => inListNodes e
  | e => [e]

/-- The nodes that stand as values in an expression: the right-hand side of
every comparison under `AND`, `OR` and parentheses, the elements of the list
for `IN`. -/
def valueNodes : Expr → List Expr
  | .ComparisonExpr operator _ right =>
    if operator = InStr then inListNodes right else [right]
  | .AndExpr l r => valueNodes l ++ valueNodes r
  | .OrExpr l r => valueNodes l ++ valueNodes r
  | .ParenExpr e => valueNodes e
  | _ => []

/-- Whether a comparison has a column reference as its right-hand side, or as
an element of its `IN` list. -/
def columnAsValue (operator : Str) (right : Expr) : Bool :=
  isColName right ||
    (operator == InStr &&
      match right with
      | .ValTuple exprs => exprs.any isColName
      | _ => false)

/-- Whether some comparison of the tree has a column reference as a value. -/
def hasColumnAsValue : Expr → Bool
  | .ComparisonExpr operator _ right => columnAsValue operator right
  | .AndExpr l r => hasColumnAsValue l || hasColumnAsValue r
  | .OrExpr l r => hasColumnAsValue l || hasColumnAsValue r
  | .NotExpr e => hasColumnAsValue e
  | .ParenExpr e => hasColumnAsValue e
  | _ => false

/-- The values an argument of `goqu.L` binds. -/
def Arg.values {F : Type} : Arg F → List (Value F)
  | .val v => [v]
  | .slice vs => vs

/-- The values bound in the leaves of a predicate. -/
def Pred.boundValues {F : Type} : Pred F → List (Value F)
  | .Eq _ v => [v]
  | .Neq _ v => [v]
  | .Lt _ v => [v]
  | .Gt _ v => [v]
  | .Lte _ v => [v]
  | .Gte _ v => [v]
  | .Like _ pattern => [.str pattern]
  | .In _ vals => vals
  | .L _ args => args.flatMap Arg.values
  | .And l r => l.boundValues ++ r.boundValues
  | .Or l r => l.boundValues ++ r.boundValues

/-- The call the translator emits for the path `path` of the JSON column
`jsonCol`. -/
def jsonExtractRaw (jsonCol path : Str) : Str :=
  "JSONExtractRaw(".toList ++ jsonCol ++ ", '$.".toList ++ path ++ "')".toList

/-- The operators with a one-value comparison, each with the text it has in
the SQL of a literal predicate. -/
def comparisonOps : List (Str × Str) :=
  [(EqualStr, "=".toList), (NotEqualStr, "!=".toList), (LessThanStr, "<".toList),
   (GreaterThanStr, ">".toList), (LessEqualStr, "<=".toList),
   (GreaterEqualStr, ">=".toList), (LikeStr, "LIKE".toList)]

/-! ### Paths -/

/-- One step of a path: a field name and the array indices that follow it,
each index as its decimal numeral. -/
structure Seg where
  field : Str
  idxs : List Str

/-- The indices of a step in bracket form: `[0][1]`. -/
def renderIdxs (idxs : List Str) : Str :=
  idxs.flatMap (fun i => '[' :: i ++ [']'])

/-- A step in the dot/bracket form: `alfa[0][1]`. -/
def Seg.render (s : Seg) : Str := s.field ++ renderIdxs s.idxs

/-- A path in the dot/bracket normal form: `alfa[0][1].gamma`. -/
def renderPath (p : List Seg) : Str := joinDot (p.map Seg.render)

/-- A name the separator `__` cannot be confused with: no two consecutive
underscores in it and no underscore at its end. -/
def sepFree : Str → Bool
  | [] => true
  | [c] => c != '_'
  | c :: d :: t => !(c == '_' && d == '_') && sepFree (d :: t)

/-- A field name the codec keeps: a non-empty identifier that is not a
numeral and cannot be confused with the separator. -/
def validField (f : Str) : Bool :=
  f != [] && f.all isWord && !f.all isDigit && sepFree f

/-- An array index the codec keeps: a decimal numeral below `2 ^ 63`. -/
def validIndex (i : Str) : Bool :=
  i != [] && i.all isDigit && decide (digitsVal i < 2 ^ 63)

/-- A step whose field name and indices the codec keeps. -/
def Seg.valid (s : Seg) : Bool := validField s.field && s.idxs.all validIndex

/-- A column name the codec keeps: a non-empty identifier that cannot be
confused with the separator. -/
def validColumn (c : Str) : Bool := c != [] && c.all isWord && sepFree c

/-- The tokens of a path, in order: each field name, then its indices. -/
def pathTokens (p : List Seg) : List Str := p.flatMap (fun s => s.field :: s.idxs)

/-- The tokens joined with the separator `__`. -/
def joinSep : List Str → Str
  | [] => []
  | [a] => a
  | a :: b :: t => a ++ sep ++ joinSep (b :: t)

/-- The three replacements of `preprocessJsonPaths`, one after the other. -/
def encodeChars (m : Str) : Str :=
  replaceChar ']' [] (replaceChar '[' ['_', '_'] (replaceChar '.' ['_', '_'] m))

/-- A translator of floats for the examples: no float literal parses. -/
def noFloat : Str → Option Nat := fun _ => none

/-! ### Function calls, arithmetic, parentheses, operators -/

/-- A function call or an arithmetic (binary) expression. -/
def isCallOrArith : Expr → Bool
  | .FuncExpr _ => true
  | .BinaryExpr _ _ _ => true
  | _ => false

/-- Whether a comparison has a function call or an arithmetic expression as
its left operand, as its right operand, or as an element of its `IN` list. -/
def callOrArithIn (operator : Str) (left right : Expr) : Bool :=
  isCallOrArith left || isCallOrArith right ||
    (operator == InStr &&
      match right with
      | .ValTuple exprs => exprs.any isCallOrArith
      | _ => false)

/-- Whether some comparison of a tree of `AND`, `OR` and parentheses has a
function call or an arithmetic expression as an operand. -/
def hasCallOrArith : Expr → Bool
  | .ComparisonExpr operator left right => callOrArithIn operator left right
  | .AndExpr l r => hasCallOrArith l || hasCallOrArith r
  | .OrExpr l r => hasCallOrArith l || hasCallOrArith r
  | .ParenExpr e => hasCallOrArith e
  | _ => false

/-- The node `e` inside `n` pairs of parentheses. -/
def parens : Nat → Expr → Expr
  | 0, e => e
  | n + 1, e => .ParenExpr (parens n e)

/-- The operators `handleComparison` has a case for. -/
def supportedOperators : List Str :=
  [EqualStr, NotEqualStr, LessThanStr, GreaterThanStr, LessEqualStr, GreaterEqualStr,
   LikeStr, InStr]

/-! ### The reference reconstruction of a path from its tokens -/

/-- A non-negative decimal integer: one or more digits, no sign. -/
def isNumeral (t : Str) : Bool := t != [] && t.all isDigit

/-- The reference reconstruction behind the first token: a token that is an
index is attached as `[t]`, every other token follows a dot. -/
def refTail (isIndex : Str → Bool) : List Str → Str
  | [] => []
  | t :: rest =>
    if isIndex t then '[' :: t ++ ']' :: refTail isIndex rest
    else '.' :: t ++ refTail isIndex rest

/-- The reference reconstruction of a path from its tokens, the first token
being a field name. -/
def refPath (isIndex : Str → Bool) : List Str → Str
  | [] => []
  | t :: rest => t ++ refTail isIndex rest

/-! ### Integer literals -/

/-- An optionally signed decimal numeral: an optional `+` or `-`, then one or
more digits. -/
def isSignedNumeral (s : Str) : Bool :=
  match s with
  | [] => false
  | c :: t => if c = '-' ∨ c = '+' then isNumeral t else isNumeral (c :: t)

/-- The integer an optionally signed decimal numeral denotes. -/
def signedVal (s : Str) : Int :=
  match s with
  | [] => 0
  | c :: t =>
    if c = '-' then -(digitsVal t : Int)
    else if c = '+' then (digitsVal t : Int)
    else (digitsVal (c :: t) : Int)

/-- The decimal numeral of an integer, with `-` in front when it is
negative. -/
def decimal (z : Int) : Str :=
  if z < 0 then '-' :: Nat.toDigits 10 z.natAbs else Nat.toDigits 10 z.natAbs

/-! ### The first failure of the translation -/

/-- Whether the first element of a tuple that does not coerce to a value is a
column reference. -/
def firstBadIsColumn {F : Type} (parseFloat : Str → Option F) (jsonColumns : List Str) :
    List Expr → Bool
  | [] => false
  | e :: rest =>
    match extractValue parseFloat jsonColumns e with
    | .ok _ => firstBadIsColumn parseFloat jsonColumns rest
    | .error _ => isColName e

/-- Whether the right-hand side of `IN` is a tuple, inside any parentheses,
whose first element that does not coerce is a column reference. -/
def inListColumnFirst {F : Type} (parseFloat : Str → Option F) (jsonColumns : List Str) :
    Expr → Bool
  | .ValTuple exprs => firstBadIsColumn parseFloat jsonColumns exprs
  | .ParenExpr e => inListColumnFirst parseFloat jsonColumns e
  | _ => false

/-- Whether the first thing the translation of a tree fails on is a column
reference that stands as a value: every operand of `AND` and `OR` before the
comparison translates, the left-hand side of the comparison is a column
reference, and the column reference is its right-hand side under an operator
other than `IN`, or the first element of its `IN` tuple that does not
coerce. -/
def columnRejectedFirst {F : Type} (parseFloat : Str → Option F)
    (jsonColumns : List Str) : Expr → Bool
  | .ComparisonExpr operator left right =>
    isColName left &&
      (if operator = InStr then inListColumnFirst parseFloat jsonColumns right
       else isColName right)
  | .AndExpr l r =>
    match toGoquExpr parseFloat jsonColumns l with
    | .ok _ => columnRejectedFirst parseFloat jsonColumns r
    | .error _ => columnRejectedFirst parseFloat jsonColumns l
  | .OrExpr l r =>
    match toGoquExpr parseFloat jsonColumns l with
    | .ok _ => columnRejectedFirst parseFloat jsonColumns r
    | .error _ => columnRejectedFirst parseFloat jsonColumns l
  | .ParenExpr e => columnRejectedFirst parseFloat jsonColumns e
  | _ => false

/-! ## The path codec: the regular expression -/

theorem isWord_of_isDigit (c : Char) (h : isDigit c = true) : isWord c = true := by
  simp only [isDigit] at h
  simp [isWord, Char.isAlphanum, h]

theorem ne_dot_of_isWord (c : Char) (h : isWord c = true) : c ≠ '.' := by
  intro hc
  subst hc
  revert h
  decide

theorem ne_open_of_isWord (c : Char) (h : isWord c = true) : c ≠ '[' := by
  intro hc
  subst hc
  revert h
  decide

theorem ne_close_of_isWord (c : Char) (h : isWord c = true) : c ≠ ']' := by
  intro hc
  subst hc
  revert h
  decide

theorem spanLen_le (q : Char → Bool) (s : Str) : spanLen q s ≤ s.length := by
  induction s with
  | nil => simp [spanLen]
  | cons c t ih =>
    simp only [spanLen]
    split_ifs
    · simp only [List.length_cons]; omega
    · omega

/-- A run of characters satisfying `q`, followed by the end of the string or by
a character that does not, is what the greedy repetition consumes. -/
theorem spanLen_append (q : Char → Bool) (a rest : Str) (ha : ∀ x ∈ a, q x = true)
    (hr : ∀ x ∈ rest.head?, q x = false) : spanLen q (a ++ rest) = a.length := by
  induction a with
  | nil =>
    cases rest with
    | nil => rfl
    | cons c t =>
      have := hr c (by simp)
      simp [spanLen, this]
  | cons c t ih =>
    have hc := ha c (List.mem_cons_self _ _)
    simp [spanLen, hc, ih (fun x hx => ha x (List.mem_cons_of_mem _ hx))]

theorem matchGroups_skip (x rest : Str) :
    matchGroups x.length (x ++ rest) = x.length + matchGroups 0 rest := by
  induction x with
  | nil => simp
  | cons c t ih =>
    show matchGroups t.length (t ++ rest) + 1 = t.length + 1 + matchGroups 0 rest
    omega

theorem replaceAllFunc_skip (x rest : Str) :
    replaceAllFunc x.length (x ++ rest) = replaceAllFunc 0 rest := by
  induction x with
  | nil => simp
  | cons c t ih =>
    show replaceAllFunc t.length (t ++ rest) = replaceAllFunc 0 rest
    exact ih

/-- The group `\.\w+` matches a dot and a run of word characters that ends at
the end of the string or at a character outside `\w`. -/
theorem matchGroup_dot (w rest : Str) (hw : w ≠ []) (hall : ∀ x ∈ w, isWord x = true)
    (hr : ∀ x ∈ rest.head?, isWord x = false) :
    matchGroup ('.' :: (w ++ rest)) = some (w.length + 1) := by
  have hlen : w.length ≠ 0 := by
    intro h
    exact hw (List.length_eq_zero.mp h)
  simp [matchGroup, spanLen_append isWord w rest hall hr, hlen]

/-- The group `\[[^\]]+\]` matches a bracketed run without `]`. -/
theorem matchGroup_bracket (i rest : Str) (hi : i ≠ []) (hall : ∀ x ∈ i, x ≠ ']') :
    matchGroup ('[' :: (i ++ ']' :: rest)) = some (i.length + 2) := by
  have hlen : i.length ≠ 0 := by
    intro h
    exact hi (List.length_eq_zero.mp h)
  have hs : spanLen (fun x => x != ']') (i ++ ']' :: rest) = i.length :=
    spanLen_append _ i (']' :: rest) (by simpa using hall) (by simp)
  have hne : ('[' : Char) ≠ '.' := by decide
  simp [matchGroup, hne, hs, hlen]

theorem matchGroup_none (s : Str) (h : ∀ x ∈ s.head?, x ≠ '.' ∧ x ≠ '[') :
    matchGroup s = none := by
  cases s with
  | nil => rfl
  | cons c t =>
    obtain ⟨h1, h2⟩ := h c (by simp)
    simp [matchGroup, h1, h2]

theorem matchGroups_none (s : Str) (h : ∀ x ∈ s.head?, x ≠ '.' ∧ x ≠ '[') :
    matchGroups 0 s = 0 := by
  cases s with
  | nil => rfl
  | cons c t => simp [matchGroups, matchGroup_none (c :: t) h]

/-- After one iteration of `n + 1` characters the repetition goes on behind
it. -/
theorem matchGroups_step (g rest : Str) (hg : g ≠ [])
    (hm : matchGroup (g ++ rest) = some g.length) :
    matchGroups 0 (g ++ rest) = g.length + matchGroups 0 rest := by
  cases g with
  | nil => exact absurd rfl hg
  | cons c t =>
    simp only [List.cons_append, List.length_cons] at hm ⊢
    simp only [matchGroups, hm, matchGroups_skip]
    omega

/-! ## The path codec: floats -/

theorem isFloat_digits (a b : Str) (ha : a ≠ []) (hda : ∀ x ∈ a, isDigit x = true)
    (hb : b ≠ []) (hdb : ∀ x ∈ b, isDigit x = true) :
    isFloat (a ++ '.' :: b) = true := by
  have hs : spanLen isDigit (a ++ '.' :: b) = a.length :=
    spanLen_append isDigit a ('.' :: b) hda (by simp; decide)
  have hlen : a.length ≠ 0 := by
    intro h
    exact ha (List.length_eq_zero.mp h)
  simp [isFloat, hs, hlen, hb]
  exact hdb

/-- A float followed by the end of the string, or by a character that is not
a word character, `.` or `[`, is matched whole. -/
theorem matchAt_float (a b suf : Str) (ha : a ≠ []) (hda : ∀ x ∈ a, isDigit x = true)
    (hb : b ≠ []) (hdb : ∀ x ∈ b, isDigit x = true)
    (hs : ∀ x ∈ suf.head?, isWord x = false ∧ x ≠ '.' ∧ x ≠ '[') :
    matchAt (a ++ '.' :: b ++ suf) = some (a ++ '.' :: b).length := by
  have hwa : ∀ x ∈ a, isWord x = true := fun x hx => isWord_of_isDigit x (hda x hx)
  have hwb : ∀ x ∈ b, isWord x = true := fun x hx => isWord_of_isDigit x (hdb x hx)
  have hlen : a.length ≠ 0 := by
    intro h
    exact ha (List.length_eq_zero.mp h)
  have hblen : b.length ≠ 0 := by
    intro h
    exact hb (List.length_eq_zero.mp h)
  have hw : spanLen isWord (a ++ '.' :: (b ++ suf)) = a.length :=
    spanLen_append isWord a _ hwa (by simp; decide)
  have hg : matchGroup ('.' :: (b ++ suf)) = some (b.length + 1) :=
    matchGroup_dot b suf hb hwb (fun x hx => (hs x hx).1)
  have hgs : matchGroups 0 ('.' :: (b ++ suf)) = b.length + 1 := by
    simp only [matchGroups, hg, matchGroups_skip,
      matchGroups_none suf (fun x hx => (hs x hx).2)]
  have e : a ++ '.' :: b ++ suf = a ++ '.' :: (b ++ suf) := by simp
  rw [e]
  simp only [matchAt, hw, hlen, if_false, List.drop_left, hgs, List.length_append,
    List.length_cons]
  simp

theorem replaceAllFunc_float (a b suf : Str) (ha : a ≠ []) (hda : ∀ x ∈ a, isDigit x = true)
    (hb : b ≠ []) (hdb : ∀ x ∈ b, isDigit x = true)
    (hs : ∀ x ∈ suf.head?, isWord x = false ∧ x ≠ '.' ∧ x ≠ '[') :
    replaceAllFunc 0 (a ++ '.' :: b ++ suf) = a ++ '.' :: b ++ replaceAllFunc 0 suf := by
  have hm := matchAt_float a b suf ha hda hb hdb hs
  cases a with
  | nil => exact absurd rfl ha
  | cons c t =>
    simp only [List.cons_append, List.length_cons, List.append_assoc] at hm ⊢
    have hfl : isFloat (c :: (t ++ '.' :: b)) = true := isFloat_digits (c :: t) b ha hda hb hdb
    have htake : List.take (t ++ '.' :: b).length (t ++ '.' :: (b ++ suf)) = t ++ '.' :: b := by
      have : t ++ '.' :: (b ++ suf) = (t ++ '.' :: b) ++ suf := by simp
      rw [this, List.take_left]
    have hskip : replaceAllFunc (t ++ '.' :: b).length (t ++ '.' :: (b ++ suf))
        = replaceAllFunc 0 suf := by
      have : t ++ '.' :: (b ++ suf) = (t ++ '.' :: b) ++ suf := by simp
      rw [this, replaceAllFunc_skip]
    simp only [replaceAllFunc, hm, List.take_succ_cons, htake, replaceMatch, hfl, if_true, hskip]
    simp

/-! ## The path codec: encoding a path -/

theorem validField_iff (f : Str) :
    validField f = true ↔
      f ≠ [] ∧ (∀ x ∈ f, isWord x = true) ∧ f.all isDigit = false ∧ sepFree f = true := by
  simp [validField, and_assoc]

theorem validIndex_iff (i : Str) :
    validIndex i = true ↔
      i ≠ [] ∧ (∀ x ∈ i, isDigit x = true) ∧ digitsVal i < 2 ^ 63 := by
  simp [validIndex, and_assoc]

theorem validColumn_iff (c : Str) :
    validColumn c = true ↔ c ≠ [] ∧ (∀ x ∈ c, isWord x = true) ∧ sepFree c = true := by
  simp [validColumn, and_assoc]

theorem Seg.valid_iff (s : Seg) :
    s.valid = true ↔ validField s.field = true ∧ ∀ i ∈ s.idxs, validIndex i = true := by
  simp [Seg.valid]

/-- The text of a path behind the column name: every step with its dot. -/
theorem dot_renderPath (p : List Seg) (hp : p ≠ []) :
    '.' :: renderPath p = p.flatMap (fun s => '.' :: s.render) := by
  induction p with
  | nil => exact absurd rfl hp
  | cons s t ih =>
    cases t with
    | nil => simp [renderPath, joinDot]
    | cons s' t' =>
      have := ih (by simp)
      simp only [renderPath, List.map_cons, joinDot, List.flatMap_cons] at this ⊢
      rw [this]
      simp

theorem matchGroups_renderIdxs (idxs : List Str) (rest : Str)
    (h : ∀ i ∈ idxs, validIndex i = true) :
    matchGroups 0 (renderIdxs idxs ++ rest)
      = (renderIdxs idxs).length + matchGroups 0 rest := by
  induction idxs with
  | nil => simp [renderIdxs]
  | cons i t ih =>
    obtain ⟨hi, hd, _⟩ := (validIndex_iff i).mp (h i (List.mem_cons_self _ _))
    have hne : ∀ x ∈ i, x ≠ ']' := fun x hx =>
      ne_close_of_isWord x (isWord_of_isDigit x (hd x hx))
    have ih' := ih (fun j hj => h j (List.mem_cons_of_mem _ hj))
    have e : renderIdxs (i :: t) ++ rest
        = ('[' :: i ++ [']']) ++ (renderIdxs t ++ rest) := by
      simp [renderIdxs]
    have hm : matchGroup (('[' :: i ++ [']']) ++ (renderIdxs t ++ rest))
        = some ('[' :: i ++ [']']).length := by
      have := matchGroup_bracket i (renderIdxs t ++ rest) hi hne
      simpa using this
    rw [e, matchGroups_step _ _ (by simp) hm, ih']
    simp [renderIdxs]
    omega

theorem head?_renderIdxs_append (idxs : List Str) (rest : Str)
    (hr : ∀ x ∈ rest.head?, isWord x = false) :
    ∀ x ∈ (renderIdxs idxs ++ rest).head?, isWord x = false := by
  cases idxs with
  | nil => simpa [renderIdxs] using hr
  | cons i t =>
    intro x hx
    simp [renderIdxs] at hx
    subst hx
    decide

theorem matchGroups_path (p : List Seg) (rest : Str)
    (h : ∀ s ∈ p, s.valid = true) (hr : ∀ x ∈ rest.head?, isWord x = false) :
    matchGroups 0 (p.flatMap (fun s => '.' :: s.render) ++ rest)
      = (p.flatMap (fun s => '.' :: s.render)).length + matchGroups 0 rest := by
  induction p with
  | nil => simp
  | cons s t ih =>
    obtain ⟨hf, hi⟩ := (Seg.valid_iff s).mp (h s (List.mem_cons_self _ _))
    obtain ⟨hfn, hfw, _, _⟩ := (validField_iff s.field).mp hf
    have ih' := ih (fun s' hs' => h s' (List.mem_cons_of_mem _ hs'))
    have hnext : ∀ x ∈ (t.flatMap (fun s => '.' :: s.render) ++ rest).head?,
        isWord x = false := by
      cases t with
      | nil => simpa using hr
      | cons s' t' =>
        intro x hx
        simp at hx
        subst hx
        decide
    have e : (s :: t).flatMap (fun s => '.' :: s.render) ++ rest
        = ('.' :: s.field) ++ (renderIdxs s.idxs
            ++ (t.flatMap (fun s => '.' :: s.render) ++ rest)) := by
      simp [Seg.render]
    have hm : matchGroup (('.' :: s.field) ++ (renderIdxs s.idxs
            ++ (t.flatMap (fun s => '.' :: s.render) ++ rest)))
        = some ('.' :: s.field).length := by
      have := matchGroup_dot s.field _ hfn hfw
        (head?_renderIdxs_append s.idxs _ hnext)
      simpa using this
    rw [e, matchGroups_step _ _ (by simp) hm, matchGroups_renderIdxs _ _ hi, ih']
    simp [Seg.render]
    omega

/-- The expression matches a column name followed by a path as a whole. -/
theorem matchAt_path (c : Str) (p : List Seg) (hc : validColumn c = true) (hp : p ≠ [])
    (h : ∀ s ∈ p, s.valid = true) :
    matchAt (c ++ '.' :: renderPath p) = some (c ++ '.' :: renderPath p).length := by
  obtain ⟨hcn, hcw, _⟩ := (validColumn_iff c).mp hc
  have hlen : c.length ≠ 0 := fun h0 => hcn (List.length_eq_zero.mp h0)
  rw [dot_renderPath p hp]
  have hw : spanLen isWord (c ++ p.flatMap (fun s => '.' :: s.render)) = c.length := by
    rw [← dot_renderPath p hp]
    exact spanLen_append isWord c _ hcw (by simp; decide)
  have hg := matchGroups_path p [] h (by simp)
  simp only [List.append_nil] at hg
  have hpos : (p.flatMap (fun s => '.' :: s.render)).length ≠ 0 := by
    rw [← dot_renderPath p hp]
    simp
  have hz : matchGroups 0 ([] : Str) = 0 := rfl
  simp only [matchAt, hw, hlen, if_false, List.drop_left, hg, hz,
    Nat.add_zero, hpos, List.length_append]

theorem replaceAllFunc_whole (s : Str) (h : matchAt s = some s.length) :
    replaceAllFunc 0 s = replaceMatch s := by
  cases s with
  | nil => simp [matchAt, spanLen] at h
  | cons c t =>
    simp only [List.length_cons] at h
    have hskip : replaceAllFunc t.length t = [] := by
      have := replaceAllFunc_skip t []
      simpa [replaceAllFunc] using this
    simp only [replaceAllFunc, h, List.take_succ_cons, List.take_length, hskip,
      List.append_nil]

theorem floatTail_false (rest : Str) (hr : rest.all isDigit = false) :
    ∀ c : Str, (∀ x ∈ c, isWord x = true) →
      (match (c ++ '.' :: rest).drop (spanLen isDigit (c ++ '.' :: rest)) with
        | x :: t => x == '.' && t != [] && t.all isDigit
        | [] => false) = false
  | [], _ => by
    have hd : isDigit '.' = false := by decide
    simp [spanLen, hd, hr]
  | x :: c, hc => by
    have ih := floatTail_false rest hr c (fun y hy => hc y (List.mem_cons_of_mem _ hy))
    by_cases hx : isDigit x = true
    · simpa [spanLen, hx] using ih
    · have hdot : x ≠ '.' := ne_dot_of_isWord x (hc x (List.mem_cons_self _ _))
      simp [spanLen, hx, hdot]

/-- A column name followed by a path is not a float: the first field name has
a character that is not a digit. -/
theorem isFloat_path (c : Str) (p : List Seg) (hc : ∀ x ∈ c, isWord x = true)
    (hp : p ≠ []) (h : ∀ s ∈ p, s.valid = true) :
    isFloat (c ++ '.' :: renderPath p) = false := by
  have hr : (renderPath p).all isDigit = false := by
    cases p with
    | nil => exact absurd rfl hp
    | cons s t =>
      obtain ⟨hf, _⟩ := (Seg.valid_iff s).mp (h s (List.mem_cons_self _ _))
      obtain ⟨_, _, hnd, _⟩ := (validField_iff s.field).mp hf
      cases t with
      | nil => simp [renderPath, joinDot, Seg.render, List.all_append, hnd]
      | cons s' t' => simp [renderPath, joinDot, Seg.render, List.all_append, hnd]
  have := floatTail_false (renderPath p) hr c hc
  simp only [isFloat, this, Bool.and_false]

theorem encodeChars_append (a b : Str) :
    encodeChars (a ++ b) = encodeChars a ++ encodeChars b := by
  simp [encodeChars, replaceChar, List.flatMap_append]

theorem encodeChars_cons (x : Char) (a : Str) :
    encodeChars (x :: a) = encodeChars [x] ++ encodeChars a :=
  encodeChars_append [x] a

theorem encodeChars_word (w : Str) (h : ∀ x ∈ w, isWord x = true) : encodeChars w = w := by
  induction w with
  | nil => rfl
  | cons x t ih =>
    have hx := h x (List.mem_cons_self _ _)
    have h1 := ne_dot_of_isWord x hx
    have h2 := ne_open_of_isWord x hx
    have h3 := ne_close_of_isWord x hx
    rw [encodeChars_cons, ih (fun y hy => h y (List.mem_cons_of_mem _ hy))]
    simp [encodeChars, replaceChar, h1, h2, h3]

theorem encodeChars_dot : encodeChars ['.'] = sep := by decide

theorem encodeChars_open : encodeChars ['['] = sep := by decide

theorem encodeChars_close : encodeChars [']'] = [] := by decide

theorem encodeChars_renderIdxs (idxs : List Str) (h : ∀ i ∈ idxs, validIndex i = true) :
    encodeChars (renderIdxs idxs) = idxs.flatMap (fun i => sep ++ i) := by
  induction idxs with
  | nil => rfl
  | cons i t ih =>
    obtain ⟨_, hd, _⟩ := (validIndex_iff i).mp (h i (List.mem_cons_self _ _))
    have hw : ∀ x ∈ i, isWord x = true := fun x hx => isWord_of_isDigit x (hd x hx)
    have e : renderIdxs (i :: t) = ['['] ++ (i ++ ([']'] ++ renderIdxs t)) := by
      simp [renderIdxs]
    rw [e, encodeChars_append, encodeChars_append, encodeChars_append, encodeChars_open,
      encodeChars_close, encodeChars_word i hw, ih (fun j hj => h j (List.mem_cons_of_mem _ hj))]
    simp

theorem encodeChars_path (p : List Seg) (h : ∀ s ∈ p, s.valid = true) :
    encodeChars (p.flatMap (fun s => '.' :: s.render))
      = (pathTokens p).flatMap (fun t => sep ++ t) := by
  induction p with
  | nil => rfl
  | cons s t ih =>
    obtain ⟨hf, hi⟩ := (Seg.valid_iff s).mp (h s (List.mem_cons_self _ _))
    obtain ⟨_, hfw, _, _⟩ := (validField_iff s.field).mp hf
    have e : (s :: t).flatMap (fun s => '.' :: s.render)
        = ['.'] ++ (s.field ++ (renderIdxs s.idxs ++ t.flatMap (fun s => '.' :: s.render))) := by
      simp [Seg.render]
    rw [e, encodeChars_append, encodeChars_append, encodeChars_append, encodeChars_dot,
      encodeChars_word _ hfw, encodeChars_renderIdxs _ hi,
      ih (fun s' hs' => h s' (List.mem_cons_of_mem _ hs'))]
    simp [pathTokens]

theorem sep_joinSep (toks : List Str) (h : toks ≠ []) :
    sep ++ joinSep toks = toks.flatMap (fun t => sep ++ t) := by
  induction toks with
  | nil => exact absurd rfl h
  | cons a t ih =>
    cases t with
    | nil => simp [joinSep]
    | cons b t' =>
      have := ih (by simp)
      simp only [joinSep, List.flatMap_cons] at this ⊢
      rw [← this]
      simp

theorem pathTokens_ne_nil (p : List Seg) (hp : p ≠ []) : pathTokens p ≠ [] := by
  cases p with
  | nil => exact absurd rfl hp
  | cons s t => simp [pathTokens]

/-- Encoding: a column name followed by a path is rewritten to the column
name and the tokens of the path, each behind a separator. -/
theorem preprocessJsonPaths_path (c : Str) (p : List Seg) (hc : validColumn c = true)
    (hp : p ≠ []) (h : ∀ s ∈ p, s.valid = true) :
    preprocessJsonPaths (c ++ '.' :: renderPath p) = c ++ sep ++ joinSep (pathTokens p) := by
  obtain ⟨_, hcw, _⟩ := (validColumn_iff c).mp hc
  have hfl := isFloat_path c p hcw hp h
  have hrm : replaceMatch (c ++ '.' :: renderPath p)
      = encodeChars (c ++ '.' :: renderPath p) := by
    simp [replaceMatch, hfl, encodeChars]
  rw [preprocessJsonPaths, replaceAllFunc_whole _ (matchAt_path c p hc hp h), hrm,
    dot_renderPath p hp, encodeChars_append, encodeChars_word c hcw, encodeChars_path p h,
    List.append_assoc, sep_joinSep _ (pathTokens_ne_nil p hp)]

/-! ## The path codec: decoding -/

theorem splitSep_ne_nil : ∀ s : Str, splitSep s ≠ []
  | [] => by simp [splitSep]
  | [c] => by simp [splitSep]
  | c :: d :: t => by
    unfold splitSep
    split_ifs
    · simp
    · cases h : splitSep (d :: t) with
      | nil => simp
      | cons p ps => simp

theorem splitSep_sep (x : Str) : splitSep (sep ++ x) = [] :: splitSep x := by
  simp [sep, splitSep]

/-- `Split` cuts a name that cannot be confused with the separator off the
separator that follows it. -/
theorem splitSep_append (x : Str) :
    ∀ a : Str, sepFree a = true → splitSep (a ++ sep ++ x) = a :: splitSep x
  | [], _ => by simpa using splitSep_sep x
  | [c], h => by
    have hc : c ≠ '_' := by simpa [sepFree] using h
    have := splitSep_sep x
    simp only [sep, List.cons_append, List.nil_append] at this ⊢
    simp [splitSep, hc, this]
  | c :: d :: t, h => by
    simp only [sepFree, Bool.and_eq_true, Bool.not_eq_true', Bool.and_eq_false_iff,
      beq_eq_false_iff_ne] at h
    obtain ⟨hcd, ht⟩ := h
    have ih := splitSep_append x (d :: t) ht
    have hn : ¬ (c = '_' ∧ d = '_') := by
      intro hh
      rcases hcd with h1 | h1
      · exact h1 hh.1
      · exact h1 hh.2
    simp only [List.cons_append, List.append_assoc] at ih ⊢
    simp only [splitSep, hn, if_false, ih]

theorem splitSep_self : ∀ a : Str, sepFree a = true → splitSep a = [a]
  | [], _ => rfl
  | [c], _ => rfl
  | c :: d :: t, h => by
    simp only [sepFree, Bool.and_eq_true, Bool.not_eq_true', Bool.and_eq_false_iff,
      beq_eq_false_iff_ne] at h
    obtain ⟨hcd, ht⟩ := h
    have ih := splitSep_self (d :: t) ht
    have hn : ¬ (c = '_' ∧ d = '_') := by
      intro hh
      rcases hcd with h1 | h1
      · exact h1 hh.1
      · exact h1 hh.2
    simp only [splitSep, hn, if_false, ih]

theorem splitSep_joinSep (toks : List Str) (hn : toks ≠ [])
    (h : ∀ t ∈ toks, sepFree t = true) : splitSep (joinSep toks) = toks := by
  induction toks with
  | nil => exact absurd rfl hn
  | cons a t ih =>
    have ha := h a (List.mem_cons_self _ _)
    cases t with
    | nil => simpa [joinSep] using splitSep_self a ha
    | cons b t' =>
      have := ih (by simp) (fun x hx => h x (List.mem_cons_of_mem _ hx))
      simp only [joinSep] at this ⊢
      rw [splitSep_append _ a ha, this]

theorem sepFree_of_no_underscore : ∀ a : Str, (∀ x ∈ a, x ≠ '_') → sepFree a = true
  | [], _ => rfl
  | [c], h => by simpa [sepFree] using h c (by simp)
  | c :: d :: t, h => by
    have ih := sepFree_of_no_underscore (d :: t) (fun x hx => h x (List.mem_cons_of_mem _ hx))
    have hc : c ≠ '_' := h c (by simp)
    simp [sepFree, ih, hc]

theorem sepFree_of_validIndex (i : Str) (h : validIndex i = true) : sepFree i = true := by
  obtain ⟨_, hd, _⟩ := (validIndex_iff i).mp h
  apply sepFree_of_no_underscore
  intro x hx hu
  subst hu
  have := hd '_' hx
  revert this
  decide

theorem sepFree_pathTokens (p : List Seg) (h : ∀ s ∈ p, s.valid = true) :
    ∀ t ∈ pathTokens p, sepFree t = true := by
  intro t ht
  simp only [pathTokens, List.mem_flatMap, List.mem_cons] at ht
  obtain ⟨s, hs, hts⟩ := ht
  obtain ⟨hf, hi⟩ := (Seg.valid_iff s).mp (h s hs)
  rcases hts with hts | hts
  · subst hts
    exact ((validField_iff s.field).mp hf).2.2.2
  · exact sepFree_of_validIndex t (hi t hts)

theorem atoi_validField (f : Str) (h : validField f = true) : (atoi f).isSome = false := by
  obtain ⟨hn, hw, hd, _⟩ := (validField_iff f).mp h
  cases f with
  | nil => exact absurd rfl hn
  | cons x t =>
    have hx := hw x (List.mem_cons_self _ _)
    have h1 : x ≠ '-' := by
      intro hh
      subst hh
      revert hx
      decide
    have h2 : x ≠ '+' := by
      intro hh
      subst hh
      revert hx
      decide
    simp [atoi, parseInt64, h1, h2, hd]

theorem atoi_validIndex (i : Str) (h : validIndex i = true) : (atoi i).isSome = true := by
  obtain ⟨hn, hd, hv⟩ := (validIndex_iff i).mp h
  cases i with
  | nil => exact absurd rfl hn
  | cons x t =>
    have hx := hd x (List.mem_cons_self _ _)
    have h1 : x ≠ '-' := by
      intro hh
      subst hh
      revert hx
      decide
    have h2 : x ≠ '+' := by
      intro hh
      subst hh
      revert hx
      decide
    have hall : (x :: t).all isDigit = true := by
      simpa using hd
    have hv' : digitsVal (x :: t) < 9223372036854775808 := by simpa using hv
    simp [atoi, parseInt64, h1, h2, hall, hv']

theorem foldl_foldPart_idxs (acc : List Str) (idxs : List Str)
    (h : ∀ i ∈ idxs, validIndex i = true) :
    ∀ x : Str, idxs.foldl foldPart (acc ++ [x]) = acc ++ [x ++ renderIdxs idxs] := by
  induction idxs with
  | nil => intro x; simp [renderIdxs]
  | cons i t ih =>
    intro x
    have hi := atoi_validIndex i (h i (List.mem_cons_self _ _))
    have hstep : foldPart (acc ++ [x]) i = acc ++ [x ++ ['['] ++ i ++ [']']] := by
      simp [foldPart, hi]
    rw [List.foldl_cons, hstep, ih (fun j hj => h j (List.mem_cons_of_mem _ hj))]
    simp [renderIdxs]

/-- The loop of `reverseJsonPath` over the tokens of a path rebuilds its
steps. -/
theorem foldl_foldPart_path (p : List Seg) (h : ∀ s ∈ p, s.valid = true) :
    ∀ acc : List Str, (pathTokens p).foldl foldPart acc = acc ++ p.map Seg.render := by
  induction p with
  | nil => intro acc; simp [pathTokens]
  | cons s t ih =>
    intro acc
    obtain ⟨hf, hi⟩ := (Seg.valid_iff s).mp (h s (List.mem_cons_self _ _))
    have hfield : foldPart acc s.field = acc ++ [s.field] := by
      simp [foldPart, atoi_validField s.field hf]
    have e : pathTokens (s :: t) = s.field :: (s.idxs ++ pathTokens t) := by
      simp [pathTokens]
    rw [e, List.foldl_cons, hfield, List.foldl_append, foldl_foldPart_idxs acc s.idxs hi,
      ih (fun s' hs' => h s' (List.mem_cons_of_mem _ hs'))]
    simp [Seg.render]

/-- Among names that cannot be confused with the separator, only the column
name itself, followed by the separator, starts the encoded identifier. -/
theorem reverseJsonPath_encoded (c J : Str) (hc : sepFree c = true) :
    ∀ jsonColumns : List Str, c ∈ jsonColumns →
      (∀ c' ∈ jsonColumns, sepFree c' = true) →
      reverseJsonPath (c ++ sep ++ J) jsonColumns
        = (c, joinDot ((splitSep J).foldl foldPart []), true)
  | [], hm, _ => by simp at hm
  | c' :: rest, hm, hs => by
    by_cases hcc : c' = c
    · subst hcc
      have hpre : (c' ++ sep).isPrefixOf (c' ++ sep ++ J) = true := by
        rw [List.isPrefixOf_iff_prefix]
        exact List.prefix_append _ _
      simp only [reverseJsonPath, hpre, if_true, List.drop_left]
    · have hc' := hs c' (List.mem_cons_self _ _)
      have hpre : (c' ++ sep).isPrefixOf (c ++ sep ++ J) = false := by
        rw [Bool.eq_false_iff]
        intro hp
        rw [List.isPrefixOf_iff_prefix] at hp
        obtain ⟨y, hy⟩ := hp
        have h1 := splitSep_append y c' hc'
        rw [hy, splitSep_append J c hc] at h1
        simp only [List.cons.injEq] at h1
        exact hcc h1.1.symm
      have hne : c ++ sep ++ J ≠ c' := by
        intro he
        have h1 := splitSep_self c' hc'
        rw [← he, splitSep_append J c hc] at h1
        simp only [List.cons.injEq] at h1
        exact splitSep_ne_nil J h1.2
      have hmem : c ∈ rest := by
        rcases List.mem_cons.mp hm with h | h
        · exact absurd h.symm hcc
        · exact h
      simp only [reverseJsonPath, hpre, hne, if_false, Bool.false_eq_true]
      exact reverseJsonPath_encoded c J hc rest hmem
        (fun x hx => hs x (List.mem_cons_of_mem _ hx))

/-- C1 (as stated, refuted): the round trip loses a field name with `__`
inside (`first__name` comes back as `first.name`), a field name that is a
numeral (`5` comes back as the empty path), an index that does not fit 64 bits
(`alfa[9223372036854775808]` comes back as `alfa.9223372036854775808`), and a
column name that extends another one of the list (`a__b` after `a`). -/
theorem roundTrip_fails :
    reverseJsonPath
        (preprocessJsonPaths ("meta".toList ++ '.' :: "first__name".toList))
        ["meta".toList]
      = ("meta".toList, "first.name".toList, true) ∧
    reverseJsonPath (preprocessJsonPaths ("meta".toList ++ '.' :: "5".toList))
        ["meta".toList]
      = ("meta".toList, [], true) ∧
    reverseJsonPath
        (preprocessJsonPaths ("meta".toList ++ '.' :: "alfa[9223372036854775808]".toList))
        ["meta".toList]
      = ("meta".toList, "alfa.9223372036854775808".toList, true) ∧
    reverseJsonPath (preprocessJsonPaths ("a__b".toList ++ '.' :: "x".toList))
        ["a".toList, "a__b".toList]
      = ("a".toList, "b.x".toList, true) ∧
    reverseJsonPath
        (preprocessJsonPaths ("meta".toList ++ '.' :: "first__name".toList))
        ["meta".toList]
      ≠ ("meta".toList, "first__name".toList, true) := by
  decide

/-- C1 (amended): for JSON column names that cannot be confused with the
separator (no `__` inside, no `_` at the end), a column `c` of the list that is
a non-empty identifier, and a non-empty path `p` whose field names are
identifiers that are not numerals and cannot be confused with the separator,
and whose indices are decimal numerals below `2 ^ 63`,
`reverseJsonPath(preprocessJsonPaths(c + "." + p), jsonColumns)` returns
`(c, p, true)`, `p` in the dot/bracket normal form. -/
theorem roundTrip (jsonColumns : List Str) (c : Str) (p : List Seg)
    (hmem : c ∈ jsonColumns) (hcols : ∀ c' ∈ jsonColumns, sepFree c' = true)
    (hc : validColumn c = true) (hp : p ≠ []) (h : ∀ s ∈ p, s.valid = true) :
    reverseJsonPath (preprocessJsonPaths (c ++ '.' :: renderPath p)) jsonColumns
      = (c, renderPath p, true) := by
  rw [preprocessJsonPaths_path c p hc hp h,
    reverseJsonPath_encoded c _ ((validColumn_iff c).mp hc).2.2 jsonColumns hmem hcols,
    splitSep_joinSep _ (pathTokens_ne_nil p hp) (sepFree_pathTokens p h),
    foldl_foldPart_path p h []]
  rfl

theorem roundTrip_witness :
    reverseJsonPath
        (preprocessJsonPaths ("meta".toList ++ '.' ::
          renderPath [⟨"alfa".toList, ["0".toList, "1".toList]⟩, ⟨"gamma".toList, []⟩]))
        ["data".toList, "meta".toList]
      = ("meta".toList,
          renderPath [⟨"alfa".toList, ["0".toList, "1".toList]⟩, ⟨"gamma".toList, []⟩],
          true) ∧
    renderPath [⟨"alfa".toList, ["0".toList, "1".toList]⟩, ⟨"gamma".toList, []⟩]
      = "alfa[0][1].gamma".toList :=
  ⟨roundTrip ["data".toList, "meta".toList] "meta".toList
      [⟨"alfa".toList, ["0".toList, "1".toList]⟩, ⟨"gamma".toList, []⟩]
      (by decide) (by decide) (by decide) (List.cons_ne_nil _ _) (by decide),
   by decide⟩

/-! ## The path codec: string literals -/

/-- C2 (the code at the failing input): `preprocessJsonPaths` rewrites the
text inside the quotes of `email LIKE '%@example.com'`, to
`'%@example__com'`; whatever the parser, `AddWhereClause` treats the clause as
it treats the rewritten one; and the comparison the rewritten clause parses to
translates to the native `Like` with the pattern `%@example__com`. -/
theorem preprocessJsonPaths_rewrites_literal :
    preprocessJsonPaths "email LIKE '%@example.com'".toList
        = "email LIKE '%@example__com'".toList ∧
      (∀ (parse : Str → Except Str Stmt) (ds : List (Pred Nat)),
        AddWhereClause parse noFloat ds ["meta".toList, "settings".toList]
            "email LIKE '%@example.com'".toList
          = AddWhereClause parse noFloat ds ["meta".toList, "settings".toList]
            "email LIKE '%@example__com'".toList) ∧
      toGoquExpr noFloat ["meta".toList, "settings".toList]
          (.ComparisonExpr LikeStr (.ColName "email".toList)
            (.SQLVal .StrVal "%@example__com".toList))
        = .ok (.Like "email".toList "%@example__com".toList) := by
  have h1 : preprocessJsonPaths "email LIKE '%@example.com'".toList
      = "email LIKE '%@example__com'".toList := by decide
  have h2 : preprocessJsonPaths "email LIKE '%@example__com'".toList
      = "email LIKE '%@example__com'".toList := by decide
  refine ⟨h1, ?_, by decide⟩
  intro parse ds
  simp only [AddWhereClause, h1, h2]

/-! ## The path codec: text in which no match runs into what follows -/

theorem getLast?_tail_of_ne_nil {α : Type} (c : α) (t : List α) (ht : t ≠ []) :
    (c :: t).getLast? = t.getLast? := by
  cases t with
  | nil => exact absurd rfl ht
  | cons d t' => simp

theorem spanLen_clean (rest : Str) :
    ∀ t : Str, t ≠ [] → (∀ x ∈ t.getLast?, isWord x = false) →
      spanLen isWord (t ++ rest) = spanLen isWord t ∧ spanLen isWord t < t.length
  | [], h, _ => absurd rfl h
  | [c], _, hl => by
    have hc : isWord c = false := hl c (by simp)
    simp [spanLen, hc]
  | c :: d :: t, _, hl => by
    have ih := spanLen_clean rest (d :: t) (by simp) (by simpa using hl)
    by_cases hc : isWord c = true
    · simp only [List.cons_append, spanLen, hc, if_true, List.length_cons] at ih ⊢
      omega
    · simp [spanLen, hc]

theorem matchGroups_clean (rest : Str) :
    ∀ (p : Str) (k : Nat), '[' ∉ p →
      (∀ x ∈ p.getLast?, isWord x = false ∧ x ≠ '.') → k < p.length →
      matchGroups k (p ++ rest) = matchGroups k p ∧ matchGroups k p < p.length
  | [], k, _, _, hk => by simp at hk
  | c :: t, k + 1, hb, hl, hk => by
    have ht : t ≠ [] := by
      intro h
      subst h
      simp at hk
    have ih := matchGroups_clean rest t k (fun h => hb (List.mem_cons_of_mem _ h))
      (by rw [← getLast?_tail_of_ne_nil c t ht]; exact hl)
      (by simpa using hk)
    simp only [List.cons_append, matchGroups, List.length_cons, List.append_eq]
    omega
  | c :: t, 0, hb, hl, _ => by
    by_cases hc : c = '.'
    · subst hc
      have ht : t ≠ [] := by
        intro h
        subst h
        exact (hl '.' (by simp)).2 rfl
      have hlt : ∀ x ∈ t.getLast?, isWord x = false ∧ x ≠ '.' := by
        rw [← getLast?_tail_of_ne_nil '.' t ht]
        exact hl
      obtain ⟨hs1, hs2⟩ := spanLen_clean rest t ht (fun x hx => (hlt x hx).1)
      by_cases hn : spanLen isWord t = 0
      · simp [matchGroups, matchGroup, hs1, hn]
      · have ih := matchGroups_clean rest t (spanLen isWord t)
          (fun h => hb (List.mem_cons_of_mem _ h)) hlt hs2
        have hg1 : matchGroup ('.' :: (t ++ rest)) = some (spanLen isWord t + 1) := by
          simp [matchGroup, hs1, hn]
        have hg2 : matchGroup ('.' :: t) = some (spanLen isWord t + 1) := by
          simp [matchGroup, hn]
        simp only [List.cons_append, matchGroups, List.append_eq, hg1, hg2, List.length_cons]
        omega
    · have ho : c ≠ '[' := fun h => hb (by simp [h])
      simp [matchGroups, matchGroup, hc, ho]

theorem matchAt_clean (rest : Str) (p : Str) (hp : p ≠ []) (hb : '[' ∉ p)
    (hl : ∀ x ∈ p.getLast?, isWord x = false ∧ x ≠ '.') :
    matchAt (p ++ rest) = matchAt p ∧ ∀ m, matchAt p = some m → m < p.length := by
  obtain ⟨hs1, hs2⟩ := spanLen_clean rest p hp (fun x hx => (hl x hx).1)
  have hdrop : List.drop (spanLen isWord p) (p ++ rest)
      = List.drop (spanLen isWord p) p ++ rest :=
    List.drop_append_of_le_length (Nat.le_of_lt hs2)
  have hlen : (List.drop (spanLen isWord p) p).length = p.length - spanLen isWord p :=
    List.length_drop _ _
  have hg := matchGroups_clean rest (List.drop (spanLen isWord p) p) 0
    (fun h => hb (List.mem_of_mem_drop h))
    (by
      rw [List.getLast?_drop, if_neg (by omega)]
      exact hl)
    (by omega)
  constructor
  · simp only [matchAt, hs1, hdrop, hg.1]
  · intro m hm
    simp only [matchAt] at hm
    split_ifs at hm
    simp only [Option.some.injEq] at hm
    omega

theorem replaceAllFunc_clean (rest : Str) :
    ∀ (p : Str) (k : Nat), '[' ∉ p →
      (∀ x ∈ p.getLast?, isWord x = false ∧ x ≠ '.') → k ≤ p.length →
      replaceAllFunc k (p ++ rest) = replaceAllFunc k p ++ replaceAllFunc 0 rest
  | [], k, _, _, hk => by
    have : k = 0 := by simpa using hk
    subst this
    cases rest <;> simp [replaceAllFunc]
  | c :: t, k, hb, hl, hk => by
    have hbt : '[' ∉ t := fun h => hb (List.mem_cons_of_mem _ h)
    have hlt : ∀ x ∈ t.getLast?, isWord x = false ∧ x ≠ '.' := by
      by_cases ht : t = []
      · subst ht
        simp
      · rw [← getLast?_tail_of_ne_nil c t ht]
        exact hl
    cases k with
    | succ k =>
      exact replaceAllFunc_clean rest t k hbt hlt (by simpa using hk)
    | zero =>
      obtain ⟨hm1, hm2⟩ := matchAt_clean rest (c :: t) (by simp) hb hl
      simp only [List.cons_append] at hm1
      cases hm : matchAt (c :: t) with
      | none =>
        simp only [List.cons_append, replaceAllFunc, List.append_eq, hm1, hm]
        rw [replaceAllFunc_clean rest t 0 hbt hlt (Nat.zero_le _)]
      | some m =>
        have hlt2 := hm2 m hm
        cases m with
        | zero =>
          simp only [List.cons_append, replaceAllFunc, List.append_eq, hm1, hm]
          rw [replaceAllFunc_clean rest t 0 hbt hlt (Nat.zero_le _)]
        | succ n =>
          have hn : n ≤ t.length := by
            simp only [List.length_cons] at hlt2
            omega
          simp only [List.cons_append, replaceAllFunc, List.append_eq, hm1, hm, List.take_succ_cons]
          rw [replaceAllFunc_clean rest t n hbt hlt hn, List.take_append_of_le_length hn]
          simp

/-- C3 (the code at the failing input): in `n = 'a[' AND p < 1.5 AND m = ']'`
the float `1.5` is a token of its own, between blanks, and
`preprocessJsonPaths` rewrites it to `1__5`: the bracket group opened inside
the first quoted literal runs to the `]` inside the last one. -/
theorem preprocessJsonPaths_float_token_changed :
    preprocessJsonPaths "n = 'a[' AND p < 1.5 AND m = ']'".toList
      = "n = 'a__' AND p < 1__5 AND m = ''".toList := by
  decide

/-- Float protection where it holds: a string of one or more digits, a dot
and one or more digits is returned unchanged by `preprocessJsonPaths`; and such
a float is copied unchanged, the text on either side being rewritten on its
own, when the text before it has no `[` and is empty or ends with a character
that is neither a word character nor `.`, and the text after it is empty or
starts with a character that is not a word character, `.` or `[`. -/
theorem preprocessJsonPaths_float (a b : Str) (ha : a ≠ []) (hda : ∀ x ∈ a, isDigit x = true)
    (hb : b ≠ []) (hdb : ∀ x ∈ b, isDigit x = true) :
    preprocessJsonPaths (a ++ '.' :: b) = a ++ '.' :: b ∧
      ∀ pre suf : Str, '[' ∉ pre →
        (∀ x ∈ pre.getLast?, isWord x = false ∧ x ≠ '.') →
        (∀ x ∈ suf.head?, isWord x = false ∧ x ≠ '.' ∧ x ≠ '[') →
        preprocessJsonPaths (pre ++ (a ++ '.' :: b) ++ suf)
          = preprocessJsonPaths pre ++ (a ++ '.' :: b) ++ preprocessJsonPaths suf := by
  constructor
  · have := replaceAllFunc_float a b [] ha hda hb hdb (by simp)
    simpa [preprocessJsonPaths, replaceAllFunc] using this
  · intro pre suf hpre hlast hsuf
    simp only [preprocessJsonPaths]
    rw [List.append_assoc, replaceAllFunc_clean _ pre 0 hpre hlast (Nat.zero_le _),
      replaceAllFunc_float a b suf ha hda hb hdb hsuf]
    simp

theorem preprocessJsonPaths_float_witness :
    preprocessJsonPaths "100.5".toList = "100.5".toList ∧
      preprocessJsonPaths ("price < ".toList ++ "100.5".toList ++ " AND a.b = 1".toList)
        = preprocessJsonPaths "price < ".toList ++ "100.5".toList
            ++ preprocessJsonPaths " AND a.b = 1".toList :=
  ⟨(preprocessJsonPaths_float "100".toList "5".toList (by decide) (by decide) (by decide)
      (by decide)).1,
   (preprocessJsonPaths_float "100".toList "5".toList (by decide) (by decide) (by decide)
      (by decide)).2 "price < ".toList " AND a.b = 1".toList (by decide) (by decide)
      (by decide)⟩

/-! ## The translator: left-hand sides -/

theorem extractExpression_json (jsonColumns : List Str) (colName jsonCol path : Str)
    (h : reverseJsonPath colName jsonColumns = (jsonCol, path, true)) (hp : path ≠ []) :
    extractExpression jsonColumns (.ColName colName)
      = .ok (jsonExtractRaw jsonCol path, true) := by
  simp [extractExpression, h, hp, jsonExtractRaw, convertToClickhousePath]

theorem extractExpression_plain (jsonColumns : List Str) (colName : Str)
    (h : (reverseJsonPath colName jsonColumns).2.2 = false) :
    extractExpression jsonColumns (.ColName colName) = .ok (colName, false) := by
  rcases hr : reverseJsonPath colName jsonColumns with ⟨a, b, c⟩
  rw [hr] at h
  simp only at h
  subst h
  simp [extractExpression, hr]

/-- C6 (as stated, refuted): for the JSON column `meta` and the identifier
`meta__name`, which decodes to the path `name`, the left-hand text is not
`JSONExtract(meta, '$.name')`. -/
theorem extractExpression_not_JSONExtract :
    reverseJsonPath "meta__name".toList ["meta".toList]
        = ("meta".toList, "name".toList, true) ∧
      extractExpression ["meta".toList] (.ColName "meta__name".toList)
        ≠ .ok ("JSONExtract(meta, '$.name')".toList, true) := by
  decide

/-- C6 (amended): for every JSON column `c` and non-empty decoded path `p`, the
left-hand text `extractExpression` produces is `JSONExtractRaw(c, '$.p')`; and
the comparison `meta__name = 'John'`, which `meta.name = 'John'` is rewritten
to, yields the literal `JSONExtractRaw(meta, '$.name') = ?` bound to `John`. -/
theorem extractExpression_JSONExtractRaw {F : Type} (parseFloat : Str → Option F)
    (jsonColumns : List Str) (colName c p : Str)
    (h : reverseJsonPath colName jsonColumns = (c, p, true)) (hp : p ≠ []) :
    extractExpression jsonColumns (.ColName colName)
        = .ok ("JSONExtractRaw(".toList ++ c ++ ", '$.".toList ++ p ++ "')".toList, true) ∧
      preprocessJsonPaths "meta.name = 'John'".toList = "meta__name = 'John'".toList ∧
      toGoquExpr parseFloat ["meta".toList]
          (.ComparisonExpr EqualStr (.ColName "meta__name".toList)
            (.SQLVal .StrVal "John".toList))
        = .ok (.L "JSONExtractRaw(meta, '$.name') = ?".toList
            [.val (.str "John".toList)]) := by
  refine ⟨extractExpression_json jsonColumns colName c p h hp, by decide, ?_⟩
  rfl

theorem extractExpression_JSONExtractRaw_witness :
    reverseJsonPath "data__items__2__name".toList ["meta".toList, "data".toList]
        = ("data".toList, "items[2].name".toList, true) ∧
      extractExpression ["meta".toList, "data".toList]
          (.ColName "data__items__2__name".toList)
        = .ok ("JSONExtractRaw(data, '$.items[2].name')".toList, true) :=
  ⟨by decide,
   (extractExpression_JSONExtractRaw noFloat ["meta".toList, "data".toList]
      "data__items__2__name".toList "data".toList "items[2].name".toList
      (by decide) (by decide)).1⟩

/-! ## The translator: comparisons -/

/-- C7: for a JSON column `c`, an identifier decoding to the non-empty path
`p`, an operator among `=`, `!=`, `<`, `>`, `<=`, `>=`, `LIKE` and a right-hand
side coercing to `v`, `handleComparison` returns the literal predicate with the
text `JSONExtractRaw(c, '$.p') <op> ?` and the single bound argument `v`. -/
theorem handleComparison_json {F : Type} (parseFloat : Str → Option F)
    (jsonColumns : List Str) (colName c p : Str) (operator opText : Str)
    (right : Expr) (v : Value F)
    (h : reverseJsonPath colName jsonColumns = (c, p, true)) (hp : p ≠ [])
    (hop : (operator, opText) ∈ comparisonOps)
    (hv : extractValue parseFloat jsonColumns right = .ok v) :
    handleComparison parseFloat jsonColumns operator (.ColName colName) right
      = .ok (.L ("JSONExtractRaw(".toList ++ c ++ ", '$.".toList ++ p ++ "')".toList
              ++ " ".toList ++ opText ++ " ?".toList) [.val v]) := by
  have hl := extractExpression_json jsonColumns colName c p h hp
  simp only [comparisonOps, List.mem_cons, Prod.mk.injEq, List.mem_singleton,
    List.not_mem_nil, or_false] at hop
  rcases hop with ⟨h1, h2⟩ | ⟨h1, h2⟩ | ⟨h1, h2⟩ | ⟨h1, h2⟩ | ⟨h1, h2⟩ | ⟨h1, h2⟩ | ⟨h1, h2⟩ <;>
    subst h1 <;> subst h2 <;>
    simp [handleComparison, hl, hv, jsonExtractRaw, EqualStr, NotEqualStr, LessThanStr,
      GreaterThanStr, LessEqualStr, GreaterEqualStr, LikeStr, InStr]

theorem handleComparison_json_witness :
    handleComparison noFloat ["meta".toList] LessEqualStr (.ColName "meta__a__0".toList)
        (.SQLVal .IntVal "7".toList)
      = .ok (.L "JSONExtractRaw(meta, '$.a[0]') <= ?".toList [.val (.int 7)]) :=
  handleComparison_json noFloat ["meta".toList] "meta__a__0".toList "meta".toList
    "a[0]".toList LessEqualStr "<=".toList (.SQLVal .IntVal "7".toList) (.int 7)
    (by decide) (by decide) (by decide) (by decide)

/-- C8: for a column reference that is not a JSON path and a right-hand side
coercing to `v`, `handleComparison` returns the native comparison of the column
of that name against `v`: `Eq`, `Neq`, `Lt`, `Gt`, `Lte`, `Gte` for `=`, `!=`,
`<`, `>`, `<=`, `>=`; and for `LIKE` with a string `s`, the native `Like`
against `s`. -/
theorem handleComparison_plain {F : Type} (parseFloat : Str → Option F)
    (jsonColumns : List Str) (colName : Str) (right : Expr) (v : Value F)
    (h : (reverseJsonPath colName jsonColumns).2.2 = false)
    (hv : extractValue parseFloat jsonColumns right = .ok v) :
    handleComparison parseFloat jsonColumns EqualStr (.ColName colName) right
        = .ok (.Eq colName v) ∧
      handleComparison parseFloat jsonColumns NotEqualStr (.ColName colName) right
        = .ok (.Neq colName v) ∧
      handleComparison parseFloat jsonColumns LessThanStr (.ColName colName) right
        = .ok (.Lt colName v) ∧
      handleComparison parseFloat jsonColumns GreaterThanStr (.ColName colName) right
        = .ok (.Gt colName v) ∧
      handleComparison parseFloat jsonColumns LessEqualStr (.ColName colName) right
        = .ok (.Lte colName v) ∧
      handleComparison parseFloat jsonColumns GreaterEqualStr (.ColName colName) right
        = .ok (.Gte colName v) ∧
      ∀ s, v = .str s →
        handleComparison parseFloat jsonColumns LikeStr (.ColName colName) right
          = .ok (.Like colName s) := by
  have hl := extractExpression_plain jsonColumns colName h
  refine ⟨?_, ?_, ?_, ?_, ?_, ?_, ?_⟩
  all_goals first
    | (intro s hs; subst hs)
    | skip
  all_goals
    simp [handleComparison, hl, hv, EqualStr, NotEqualStr, LessThanStr,
      GreaterThanStr, LessEqualStr, GreaterEqualStr, LikeStr, InStr]

theorem handleComparison_plain_witness :
    handleComparison noFloat ["meta".toList] GreaterThanStr (.ColName "age".toList)
        (.SQLVal .IntVal "18".toList)
      = .ok (.Gt "age".toList (.int 18)) :=
  (handleComparison_plain noFloat ["meta".toList] "age".toList
    (.SQLVal .IntVal "18".toList) (.int 18) (by decide) (by decide)).2.2.2.1

/-! ## The translator: `IN` -/

theorem extractTuple_forall₂ {F : Type} (parseFloat : Str → Option F)
    (jsonColumns : List Str) (exprs : List Expr) (vs : List (Value F))
    (h : List.Forall₂ (fun e v => extractValue parseFloat jsonColumns e = .ok v) exprs vs) :
    extractTuple parseFloat jsonColumns exprs = .ok vs := by
  induction h with
  | nil => rfl
  | cons h1 _ ih => simp [extractTuple, h1, ih]

/-- C9: for a tuple of literal nodes coercing to the values `vs`, one by one
and in order, `extractInValues` returns `vs`; for a single bare literal coercing
to `v` it returns `[v]`; and for a plain column, `handleComparison` with `IN`
returns the native membership test of the column against the list
`extractInValues` returns. -/
theorem extractInValues_list {F : Type} (parseFloat : Str → Option F)
    (jsonColumns : List Str) :
    (∀ (exprs : List Expr) (vs : List (Value F)),
        List.Forall₂ (fun e v => extractValue parseFloat jsonColumns e = .ok v) exprs vs →
        extractInValues parseFloat jsonColumns (.ValTuple exprs) = .ok vs ∧
          vs.length = exprs.length) ∧
      (∀ (e : Expr) (v : Value F), isLiteral e = true →
        extractValue parseFloat jsonColumns e = .ok v →
        extractInValues parseFloat jsonColumns e = .ok [v]) ∧
      (∀ (colName : Str) (right : Expr) (vs : List (Value F)),
        (reverseJsonPath colName jsonColumns).2.2 = false →
        extractInValues parseFloat jsonColumns right = .ok vs →
        handleComparison parseFloat jsonColumns InStr (.ColName colName) right
          = .ok (.In colName vs)) := by
  refine ⟨?_, ?_, ?_⟩
  · intro exprs vs h
    exact ⟨by simpa [extractInValues] using extractTuple_forall₂ parseFloat jsonColumns exprs vs h,
      h.length_eq.symm⟩
  · intro e v hl hv
    cases e <;> simp [isLiteral] at hl <;> simp [extractInValues, hv]
  · intro colName right vs h hv
    have hl := extractExpression_plain jsonColumns colName h
    simp [handleComparison, hl, hv]

theorem extractInValues_list_witness :
    extractInValues noFloat []
        (.ValTuple [.SQLVal .StrVal "admin".toList, .SQLVal .IntVal "2".toList, .NullVal])
      = .ok [.str "admin".toList, .int 2, .null] ∧
    extractInValues noFloat [] (.SQLVal .IntVal "2".toList) = .ok [.int 2] ∧
    handleComparison noFloat [] InStr (.ColName "role".toList)
        (.ValTuple [.SQLVal .StrVal "admin".toList, .SQLVal .IntVal "2".toList, .NullVal])
      = .ok (.In "role".toList [.str "admin".toList, .int 2, .null]) :=
  ⟨((extractInValues_list noFloat []).1 _ _
      (.cons (by decide) (.cons (by decide) (.cons (by decide) .nil)))).1,
   (extractInValues_list noFloat []).2.1 _ _ (by decide) (by decide),
   (extractInValues_list noFloat []).2.2 "role".toList _ _ (by decide) (by decide)⟩

/-- C10 (as stated, refuted): for the JSON path `meta__x` and the list
`(1, 2)`, the text of the literal predicate ends in `IN ?`, not in `IN (?)`,
and the literal has one bound argument, not two. -/
theorem handleComparison_json_in_not_paren :
    ∃ sql args,
      handleComparison noFloat ["meta".toList] InStr (.ColName "meta__x".toList)
          (.ValTuple [.SQLVal .IntVal "1".toList, .SQLVal .IntVal "2".toList])
        = .ok (.L sql args) ∧
      ¬ " IN (?)".toList <:+ sql ∧ args.length ≠ 2 :=
  ⟨"JSONExtractRaw(meta, '$.x') IN ?".toList, [.slice [.int 1, .int 2]],
    by decide, by decide, by decide⟩

theorem handleComparison_in_of_json {F : Type} (parseFloat : Str → Option F)
    (jsonColumns : List Str) (left right : Expr) (t : Str) (vs : List (Value F))
    (hl : extractExpression jsonColumns left = .ok (t, true))
    (hv : extractInValues parseFloat jsonColumns right = .ok vs) :
    handleComparison parseFloat jsonColumns InStr left right
      = .ok (.L (t ++ " IN ?".toList) [.slice vs]) := by
  simp [handleComparison, hl, hv]

/-- C10 (amended): for a JSON column `c`, an identifier decoding to the
non-empty path `p` and an `IN` list of `n` literals coercing to the values
`vs`, `handleComparison` returns the literal predicate whose text is the call
`JSONExtractRaw(c, '$.p')` followed by ` IN ?`, with one bound argument: the
list `vs` of the `n` coerced values, in the order of the list. -/
theorem handleComparison_json_in {F : Type} (parseFloat : Str → Option F)
    (jsonColumns : List Str) (colName c p : Str) (exprs : List Expr)
    (vs : List (Value F))
    (h : reverseJsonPath colName jsonColumns = (c, p, true)) (hp : p ≠ [])
    (hv : List.Forall₂ (fun e v => extractValue parseFloat jsonColumns e = .ok v)
      exprs vs) :
    handleComparison parseFloat jsonColumns InStr (.ColName colName) (.ValTuple exprs)
        = .ok (.L ("JSONExtractRaw(".toList ++ c ++ ", '$.".toList ++ p ++ "')".toList
            ++ " IN ?".toList) [.slice vs]) ∧
      vs.length = exprs.length := by
  refine ⟨?_, hv.length_eq.symm⟩
  have hl := extractExpression_json jsonColumns colName c p h hp
  have ht : extractInValues parseFloat jsonColumns (.ValTuple exprs) = .ok vs := by
    simpa [extractInValues] using extractTuple_forall₂ parseFloat jsonColumns exprs vs hv
  simpa [jsonExtractRaw] using
    handleComparison_in_of_json parseFloat jsonColumns _ _ _ vs hl ht

theorem handleComparison_json_in_witness :
    handleComparison noFloat ["meta".toList] InStr (.ColName "meta__x".toList)
        (.ValTuple [.SQLVal .IntVal "1".toList, .SQLVal .IntVal "2".toList])
      = .ok (.L ("JSONExtractRaw(".toList ++ "meta".toList ++ ", '$.".toList
            ++ "x".toList ++ "')".toList ++ " IN ?".toList)
          [.slice [.int 1, .int 2]]) :=
  (handleComparison_json_in noFloat ["meta".toList] "meta__x".toList "meta".toList
    "x".toList _ _ (by decide) (by decide)
    (.cons (by decide) (.cons (by decide) .nil))).1

/-! ## The translator: column references as values -/

theorem extractExpression_colName (jsonColumns : List Str) (colName : Str) :
    ∃ t b, extractExpression jsonColumns (.ColName colName) = .ok (t, b) := by
  rcases hr : reverseJsonPath colName jsonColumns with ⟨a, p, b⟩
  cases b
  · exact ⟨colName, false, by simp [extractExpression, hr]⟩
  · by_cases hp : p = []
    · exact ⟨"JSONExtractRaw(".toList ++ a ++ ")".toList, true,
        by simp [extractExpression, hr, hp]⟩
    · exact ⟨jsonExtractRaw a p, true,
        extractExpression_json jsonColumns colName a p hr hp⟩

theorem extractValue_of_isColName {F : Type} (parseFloat : Str → Option F)
    (jsonColumns : List Str) (e : Expr) (h : isColName e = true) :
    extractValue parseFloat jsonColumns e = .error .columnNamesNotAllowed := by
  cases e <;> simp [isColName] at h
  rfl

theorem extractTuple_any_isColName {F : Type} (parseFloat : Str → Option F)
    (jsonColumns : List Str) (exprs : List Expr) (h : exprs.any isColName = true) :
    ∃ err, extractTuple parseFloat jsonColumns exprs = .error err := by
  induction exprs with
  | nil => simp at h
  | cons e rest ih =>
    unfold extractTuple
    cases he : extractValue parseFloat jsonColumns e with
    | error err => exact ⟨err, rfl⟩
    | ok v =>
      have hrest : rest.any isColName = true := by
        rw [List.any_cons, Bool.or_eq_true] at h
        rcases h with h | h
        · rw [extractValue_of_isColName parseFloat jsonColumns e h] at he
          cases he
        · exact h
      obtain ⟨err, herr⟩ := ih hrest
      exact ⟨err, by simp [herr]⟩

theorem extractTuple_first_column {F : Type} (parseFloat : Str → Option F)
    (jsonColumns : List Str) (before after : List Expr) (c : Str)
    (h : ∀ e ∈ before, ∃ v, extractValue parseFloat jsonColumns e = .ok v) :
    extractTuple parseFloat jsonColumns (before ++ .ColName c :: after)
      = .error .columnNamesNotAllowed := by
  induction before with
  | nil => simp [extractTuple, extractValue]
  | cons e rest ih =>
    obtain ⟨v, hv⟩ := h e (List.mem_cons_self _ _)
    have := ih (fun e he => h e (List.mem_cons_of_mem _ he))
    simp [extractTuple, hv, this]

theorem handleComparison_columnAsValue {F : Type} (parseFloat : Str → Option F)
    (jsonColumns : List Str) (operator : Str) (left right : Expr)
    (h : columnAsValue operator right = true) :
    ∃ err, handleComparison parseFloat jsonColumns operator left right = .error err := by
  unfold handleComparison
  cases hl : extractExpression jsonColumns left with
  | error err => exact ⟨err, rfl⟩
  | ok lb =>
    obtain ⟨leftExpr, leftIsJson⟩ := lb
    by_cases hop : operator = InStr
    · simp only [hop, if_true]
      have hin : ∃ err, extractInValues parseFloat jsonColumns right = .error err := by
        cases right <;>
          simp [columnAsValue, isColName, hop] at h <;>
          simp [extractInValues, extractValue]
        case ValTuple exprs =>
          obtain ⟨x, hx, hxc⟩ := h
          exact extractTuple_any_isColName parseFloat jsonColumns exprs
            (List.any_eq_true.mpr ⟨x, hx, hxc⟩)
      obtain ⟨err, herr⟩ := hin
      exact ⟨err, by simp [herr]⟩
    · have hc : isColName right = true := by
        simpa [columnAsValue, hop] using h
      simp only [hop, if_false]
      rw [extractValue_of_isColName parseFloat jsonColumns right hc]
      exact ⟨_, rfl⟩

theorem toGoquExpr_hasColumnAsValue {F : Type} (parseFloat : Str → Option F)
    (jsonColumns : List Str) :
    ∀ e : Expr, hasColumnAsValue e = true →
      ∃ err, toGoquExpr parseFloat jsonColumns e = .error err
  | .ComparisonExpr operator left right, h => by
    simpa [toGoquExpr] using
      handleComparison_columnAsValue parseFloat jsonColumns operator left right
        (by simpa [hasColumnAsValue] using h)
  | .AndExpr l r, h => by
    unfold toGoquExpr
    cases hl : toGoquExpr parseFloat jsonColumns l with
    | error err => exact ⟨err, rfl⟩
    | ok pl =>
      have hr : hasColumnAsValue r = true := by
        simp only [hasColumnAsValue, Bool.or_eq_true] at h
        rcases h with h | h
        · obtain ⟨err, herr⟩ := toGoquExpr_hasColumnAsValue parseFloat jsonColumns l h
          rw [herr] at hl
          cases hl
        · exact h
      obtain ⟨err, herr⟩ := toGoquExpr_hasColumnAsValue parseFloat jsonColumns r hr
      exact ⟨err, by simp [herr]⟩
  | .OrExpr l r, h => by
    unfold toGoquExpr
    cases hl : toGoquExpr parseFloat jsonColumns l with
    | error err => exact ⟨err, rfl⟩
    | ok pl =>
      have hr : hasColumnAsValue r = true := by
        simp only [hasColumnAsValue, Bool.or_eq_true] at h
        rcases h with h | h
        · obtain ⟨err, herr⟩ := toGoquExpr_hasColumnAsValue parseFloat jsonColumns l h
          rw [herr] at hl
          cases hl
        · exact h
      obtain ⟨err, herr⟩ := toGoquExpr_hasColumnAsValue parseFloat jsonColumns r hr
      exact ⟨err, by simp [herr]⟩
  | .ParenExpr e, h => by
    simpa [toGoquExpr] using
      toGoquExpr_hasColumnAsValue parseFloat jsonColumns e
        (by simpa [hasColumnAsValue] using h)
  | .NotExpr e, _ => ⟨_, rfl⟩
  | .ColName _, h => by simp [hasColumnAsValue] at h
  | .SQLVal _ _, h => by simp [hasColumnAsValue] at h
  | .NullVal, h => by simp [hasColumnAsValue] at h
  | .BoolVal _, h => by simp [hasColumnAsValue] at h
  | .ValTuple _, h => by simp [hasColumnAsValue] at h
  | .FuncExpr _, h => by simp [hasColumnAsValue] at h
  | .BinaryExpr _ _ _, h => by simp [hasColumnAsValue] at h
  | .UnaryExpr _ _, h => by simp [hasColumnAsValue] at h
  | .other _, h => by simp [hasColumnAsValue] at h

/-- C4 (as stated, refuted): in `LENGTH(name) = nick` the right-hand side is
a column reference, and translation fails with `functions are not allowed`,
not with `column names are not allowed as values`. -/
theorem toGoquExpr_column_value_other_error :
    hasColumnAsValue
        (.ComparisonExpr EqualStr (.FuncExpr "LENGTH".toList) (.ColName "nick".toList))
      = true ∧
    toGoquExpr noFloat []
        (.ComparisonExpr EqualStr (.FuncExpr "LENGTH".toList) (.ColName "nick".toList))
      = .error .functionsNotAllowed ∧
    toGoquExpr noFloat []
        (.ComparisonExpr EqualStr (.FuncExpr "LENGTH".toList) (.ColName "nick".toList))
      ≠ .error .columnNamesNotAllowed := by
  decide

/-! ## The translator: bound values -/

theorem isLiteral_of_extractValue {F : Type} (parseFloat : Str → Option F)
    (jsonColumns : List Str) (e : Expr) (v : Value F)
    (h : extractValue parseFloat jsonColumns e = .ok v) : isLiteral e = true := by
  cases e <;> simp [extractValue] at h <;> rfl

theorem extractTuple_mem {F : Type} (parseFloat : Str → Option F)
    (jsonColumns : List Str) :
    ∀ (exprs : List Expr) (vs : List (Value F)),
      extractTuple parseFloat jsonColumns exprs = .ok vs →
      ∀ v ∈ vs, ∃ n ∈ exprs, extractValue parseFloat jsonColumns n = .ok v
  | [], vs, h, v, hv => by
    simp [extractTuple] at h
    subst h
    simp at hv
  | e :: rest, vs, h, v, hv => by
    unfold extractTuple at h
    cases he : extractValue parseFloat jsonColumns e with
    | error err => simp [he] at h
    | ok v0 =>
      cases hr : extractTuple parseFloat jsonColumns rest with
      | error err => simp [he, hr] at h
      | ok vs0 =>
        simp [he, hr] at h
        subst h
        rcases List.mem_cons.mp hv with hv | hv
        · subst hv
          exact ⟨e, List.mem_cons_self _ _, he⟩
        · obtain ⟨n, hn, hnv⟩ := extractTuple_mem parseFloat jsonColumns rest vs0 hr v hv
          exact ⟨n, List.mem_cons_of_mem _ hn, hnv⟩

theorem extractInValues_single {F : Type} (parseFloat : Str → Option F)
    (jsonColumns : List Str) (e : Expr) (vs : List (Value F))
    (h : (match extractValue parseFloat jsonColumns e with
          | .error _ => (.error .inClauseRequiresList : Except Err (List (Value F)))
          | .ok val => .ok [val]) = .ok vs) :
    ∀ v ∈ vs, ∃ n ∈ [e], extractValue parseFloat jsonColumns n = .ok v := by
  cases he : extractValue parseFloat jsonColumns e with
  | error err => simp [he] at h
  | ok v0 =>
    simp [he] at h
    subst h
    intro v hv
    simp only [List.mem_singleton] at hv
    subst hv
    exact ⟨e, List.mem_singleton.mpr rfl, he⟩

theorem extractInValues_mem {F : Type} (parseFloat : Str → Option F)
    (jsonColumns : List Str) :
    ∀ (e : Expr) (vs : List (Value F)),
      extractInValues parseFloat jsonColumns e = .ok vs →
      ∀ v ∈ vs, ∃ n ∈ inListNodes e, extractValue parseFloat jsonColumns n = .ok v
  | .ValTuple exprs, vs, h => by
    simpa [inListNodes] using
      extractTuple_mem parseFloat jsonColumns exprs vs (by simpa [extractInValues] using h)
  | .ParenExpr e, vs, h => by
    simpa [inListNodes] using
      extractInValues_mem parseFloat jsonColumns e vs (by simpa [extractInValues] using h)
  | .AndExpr l r, vs, h => extractInValues_single parseFloat jsonColumns _ vs h
  | .OrExpr l r, vs, h => extractInValues_single parseFloat jsonColumns _ vs h
  | .NotExpr e, vs, h => extractInValues_single parseFloat jsonColumns _ vs h
  | .ComparisonExpr _ _ _, vs, h => extractInValues_single parseFloat jsonColumns _ vs h
  | .ColName _, vs, h => extractInValues_single parseFloat jsonColumns _ vs h
  | .SQLVal _ _, vs, h => extractInValues_single parseFloat jsonColumns _ vs h
  | .NullVal, vs, h => extractInValues_single parseFloat jsonColumns _ vs h
  | .BoolVal _, vs, h => extractInValues_single parseFloat jsonColumns _ vs h
  | .FuncExpr _, vs, h => extractInValues_single parseFloat jsonColumns _ vs h
  | .BinaryExpr _ _ _, vs, h => extractInValues_single parseFloat jsonColumns _ vs h
  | .UnaryExpr _ _, vs, h => extractInValues_single parseFloat jsonColumns _ vs h
  | .other _, vs, h => extractInValues_single parseFloat jsonColumns _ vs h

theorem handleComparison_boundValues {F : Type} (parseFloat : Str → Option F)
    (jsonColumns : List Str) (operator : Str) (left right : Expr) (p : Pred F)
    (h : handleComparison parseFloat jsonColumns operator left right = .ok p) :
    ∀ v ∈ p.boundValues,
      ∃ n ∈ (if operator = InStr then inListNodes right else [right]),
        extractValue parseFloat jsonColumns n = .ok v := by
  unfold handleComparison at h
  cases hl : extractExpression jsonColumns left with
  | error err => simp [hl] at h
  | ok lb =>
    obtain ⟨leftExpr, leftIsJson⟩ := lb
    simp only [hl] at h
    by_cases hop : operator = InStr
    · simp only [hop, if_true] at h ⊢
      cases hin : extractInValues parseFloat jsonColumns right with
      | error err => simp [hin] at h
      | ok vs =>
        have hm := extractInValues_mem parseFloat jsonColumns right vs hin
        simp only [hin] at h
        cases leftIsJson <;> simp at h <;> subst h <;>
          simpa [Pred.boundValues, Arg.values] using hm
    · simp only [hop, if_false] at h ⊢
      cases hv : extractValue parseFloat jsonColumns right with
      | error err => simp [hv] at h
      | ok rv =>
        simp only [hv] at h
        have key : ∀ v ∈ p.boundValues, v = rv := by
          cases leftIsJson
          · simp only [Bool.false_eq_true, if_false] at h
            split_ifs at h
            all_goals first
              | (simp only [Except.ok.injEq] at h; subst h;
                 simp [Pred.boundValues])
              | (cases rv <;> simp at h
                 subst h
                 simp [Pred.boundValues])
          · simp only [if_true] at h
            split_ifs at h
            all_goals first
              | (simp only [Except.ok.injEq] at h; subst h;
                 simp [Pred.boundValues, Arg.values])
        intro v hvm
        rw [key v hvm]
        exact ⟨right, List.mem_singleton.mpr rfl, hv⟩

theorem toGoquExpr_boundValues {F : Type} (parseFloat : Str → Option F)
    (jsonColumns : List Str) :
    ∀ (e : Expr) (p : Pred F), toGoquExpr parseFloat jsonColumns e = .ok p →
      ∀ v ∈ p.boundValues,
        ∃ n ∈ valueNodes e, extractValue parseFloat jsonColumns n = .ok v
  | .ComparisonExpr operator left right, p, h => by
    simpa [valueNodes] using
      handleComparison_boundValues parseFloat jsonColumns operator left right p
        (by simpa [toGoquExpr] using h)
  | .AndExpr l r, p, h => by
    unfold toGoquExpr at h
    cases hl : toGoquExpr parseFloat jsonColumns l with
    | error err => simp [hl] at h
    | ok pl =>
      cases hr : toGoquExpr parseFloat jsonColumns r with
      | error err => simp [hl, hr] at h
      | ok pr =>
        simp [hl, hr] at h
        subst h
        intro v hv
        simp only [Pred.boundValues, List.mem_append] at hv
        rcases hv with hv | hv
        · obtain ⟨n, hn, hnv⟩ := toGoquExpr_boundValues parseFloat jsonColumns l pl hl v hv
          exact ⟨n, by simp [valueNodes, hn], hnv⟩
        · obtain ⟨n, hn, hnv⟩ := toGoquExpr_boundValues parseFloat jsonColumns r pr hr v hv
          exact ⟨n, by simp [valueNodes, hn], hnv⟩
  | .OrExpr l r, p, h => by
    unfold toGoquExpr at h
    cases hl : toGoquExpr parseFloat jsonColumns l with
    | error err => simp [hl] at h
    | ok pl =>
      cases hr : toGoquExpr parseFloat jsonColumns r with
      | error err => simp [hl, hr] at h
      | ok pr =>
        simp [hl, hr] at h
        subst h
        intro v hv
        simp only [Pred.boundValues, List.mem_append] at hv
        rcases hv with hv | hv
        · obtain ⟨n, hn, hnv⟩ := toGoquExpr_boundValues parseFloat jsonColumns l pl hl v hv
          exact ⟨n, by simp [valueNodes, hn], hnv⟩
        · obtain ⟨n, hn, hnv⟩ := toGoquExpr_boundValues parseFloat jsonColumns r pr hr v hv
          exact ⟨n, by simp [valueNodes, hn], hnv⟩
  | .ParenExpr e, p, h => by
    simpa [valueNodes] using
      toGoquExpr_boundValues parseFloat jsonColumns e p (by simpa [toGoquExpr] using h)
  | .NotExpr _, _, h => by simp [toGoquExpr] at h
  | .ColName _, _, h => by simp [toGoquExpr] at h
  | .SQLVal _ _, _, h => by simp [toGoquExpr] at h
  | .NullVal, _, h => by simp [toGoquExpr] at h
  | .BoolVal _, _, h => by simp [toGoquExpr] at h
  | .ValTuple _, _, h => by simp [toGoquExpr] at h
  | .FuncExpr _, _, h => by simp [toGoquExpr] at h
  | .BinaryExpr _ _ _, _, h => by simp [toGoquExpr] at h
  | .UnaryExpr _ _, _, h => by simp [toGoquExpr] at h
  | .other _, _, h => by simp [toGoquExpr] at h

/-- C5: when `toGoquExpr` succeeds, every value bound in a leaf of the
predicate (the value of a native comparison, an element of an `IN` list, an
argument of a literal) is the coercion of a literal node that stands as a value
in the expression: a string, integer, float, boolean or null literal, never a
column reference or a function call. -/
theorem toGoquExpr_binds_literals {F : Type} (parseFloat : Str → Option F)
    (jsonColumns : List Str) (e : Expr) (p : Pred F)
    (h : toGoquExpr parseFloat jsonColumns e = .ok p) :
    ∀ v ∈ p.boundValues,
      ∃ n ∈ valueNodes e, isLiteral n = true ∧ isColName n = false ∧
        extractValue parseFloat jsonColumns n = .ok v := by
  intro v hv
  obtain ⟨n, hn, hnv⟩ := toGoquExpr_boundValues parseFloat jsonColumns e p h v hv
  have hlit := isLiteral_of_extractValue parseFloat jsonColumns n v hnv
  refine ⟨n, hn, hlit, ?_, hnv⟩
  cases n <;> simp [isLiteral] at hlit <;> rfl

theorem toGoquExpr_binds_literals_witness :
    toGoquExpr noFloat ["meta".toList]
        (.AndExpr
          (.ComparisonExpr InStr (.ColName "role".toList)
            (.ValTuple [.SQLVal .StrVal "admin".toList, .SQLVal .IntVal "2".toList]))
          (.ComparisonExpr EqualStr (.ColName "meta__ok".toList) (.BoolVal true)))
      = .ok (.And (.In "role".toList [.str "admin".toList, .int 2])
          (.L "JSONExtractRaw(meta, '$.ok') = ?".toList [.val (.bool true)])) ∧
    ∃ n ∈ valueNodes
        (.AndExpr
          (.ComparisonExpr InStr (.ColName "role".toList)
            (.ValTuple [.SQLVal .StrVal "admin".toList, .SQLVal .IntVal "2".toList]))
          (.ComparisonExpr EqualStr (.ColName "meta__ok".toList) (.BoolVal true))),
      isLiteral n = true ∧ isColName n = false ∧
        extractValue noFloat ["meta".toList] n = .ok (.bool true) :=
  ⟨by decide,
   toGoquExpr_binds_literals noFloat ["meta".toList] _
     (.And (.In "role".toList [.str "admin".toList, .int 2])
       (.L "JSONExtractRaw(meta, '$.ok') = ?".toList [.val (.bool true)]))
     (by decide) (.bool true) (by decide)⟩

/-! ## The translator: `LIKE`, calls and arithmetic, combinators, operators -/

/-- C11 (the code at the failing input): for the JSON path `meta__name`,
`LIKE` with the integer literal `5` does not fail: it yields the literal
predicate `JSONExtractRaw(meta, '$.name') LIKE ?` bound to `5`; for the plain
column `name` the same comparison fails with `LIKE pattern must be a
string`. -/
theorem handleComparison_json_like_not_checked :
    handleComparison noFloat ["meta".toList] LikeStr (.ColName "meta__name".toList)
        (.SQLVal .IntVal "5".toList)
      = .ok (.L "JSONExtractRaw(meta, '$.name') LIKE ?".toList [.val (.int 5)]) ∧
    handleComparison noFloat ["meta".toList] LikeStr (.ColName "name".toList)
        (.SQLVal .IntVal "5".toList)
      = .error .likePatternMustBeString := by
  decide

theorem extractValue_of_isCallOrArith {F : Type} (parseFloat : Str → Option F)
    (jsonColumns : List Str) (e : Expr) (h : isCallOrArith e = true) :
    ∃ err, extractValue parseFloat jsonColumns e = .error err := by
  cases e <;> simp [isCallOrArith] at h
  · exact ⟨_, rfl⟩
  · exact ⟨_, rfl⟩

theorem extractExpression_of_isCallOrArith (jsonColumns : List Str) (e : Expr)
    (h : isCallOrArith e = true) :
    ∃ err, extractExpression jsonColumns e = .error err := by
  cases e <;> simp [isCallOrArith] at h
  · exact ⟨_, rfl⟩
  · exact ⟨_, rfl⟩

theorem extractTuple_any_isCallOrArith {F : Type} (parseFloat : Str → Option F)
    (jsonColumns : List Str) (exprs : List Expr) (h : exprs.any isCallOrArith = true) :
    ∃ err, extractTuple parseFloat jsonColumns exprs = .error err := by
  induction exprs with
  | nil => simp at h
  | cons e rest ih =>
    unfold extractTuple
    cases he : extractValue parseFloat jsonColumns e with
    | error err => exact ⟨err, rfl⟩
    | ok v =>
      have hrest : rest.any isCallOrArith = true := by
        rw [List.any_cons, Bool.or_eq_true] at h
        rcases h with h | h
        · obtain ⟨err, herr⟩ := extractValue_of_isCallOrArith parseFloat jsonColumns e h
          rw [herr] at he
          cases he
        · exact h
      obtain ⟨err, herr⟩ := ih hrest
      exact ⟨err, by simp [herr]⟩

theorem extractInValues_of_isCallOrArith {F : Type} (parseFloat : Str → Option F)
    (jsonColumns : List Str) (e : Expr) (h : isCallOrArith e = true) :
    ∃ err, extractInValues parseFloat jsonColumns e = .error err := by
  cases e <;> simp [isCallOrArith] at h
  · exact ⟨_, rfl⟩
  · exact ⟨_, rfl⟩

theorem handleComparison_callOrArith {F : Type} (parseFloat : Str → Option F)
    (jsonColumns : List Str) (operator : Str) (left right : Expr)
    (h : callOrArithIn operator left right = true) :
    ∃ err, handleComparison parseFloat jsonColumns operator left right = .error err := by
  unfold handleComparison
  cases hl : extractExpression jsonColumns left with
  | error err => exact ⟨err, rfl⟩
  | ok lb =>
    obtain ⟨leftExpr, leftIsJson⟩ := lb
    have hleft : isCallOrArith left = false := by
      cases hc : isCallOrArith left with
      | false => rfl
      | true =>
        obtain ⟨err, herr⟩ := extractExpression_of_isCallOrArith jsonColumns left hc
        rw [herr] at hl
        cases hl
    by_cases hop : operator = InStr
    · simp only [hop, if_true]
      have hin : ∃ err, extractInValues parseFloat jsonColumns right = .error err := by
        unfold callOrArithIn at h
        rw [hleft] at h
        cases right with
        | ValTuple exprs =>
          have hany : exprs.any isCallOrArith = true := by
            simpa [isCallOrArith, hop] using h
          simpa [extractInValues] using
            extractTuple_any_isCallOrArith parseFloat jsonColumns exprs hany
        | FuncExpr name => exact ⟨_, rfl⟩
        | BinaryExpr o a b => exact ⟨_, rfl⟩
        | _ => simp [isCallOrArith] at h
      obtain ⟨err, herr⟩ := hin
      exact ⟨err, by simp [herr]⟩
    · have hc : isCallOrArith right = true := by
        unfold callOrArithIn at h
        rw [hleft] at h
        simpa [hop] using h
      obtain ⟨err, herr⟩ := extractValue_of_isCallOrArith parseFloat jsonColumns right hc
      simp only [hop, if_false, herr]
      exact ⟨_, rfl⟩

theorem toGoquExpr_hasCallOrArith {F : Type} (parseFloat : Str → Option F)
    (jsonColumns : List Str) :
    ∀ e : Expr, hasCallOrArith e = true →
      ∃ err, toGoquExpr parseFloat jsonColumns e = .error err
  | .ComparisonExpr operator left right, h => by
    simpa [toGoquExpr] using
      handleComparison_callOrArith parseFloat jsonColumns operator left right
        (by simpa [hasCallOrArith] using h)
  | .AndExpr l r, h => by
    unfold toGoquExpr
    cases hl : toGoquExpr parseFloat jsonColumns l with
    | error err => exact ⟨err, rfl⟩
    | ok pl =>
      have hr : hasCallOrArith r = true := by
        simp only [hasCallOrArith, Bool.or_eq_true] at h
        rcases h with h | h
        · obtain ⟨err, herr⟩ := toGoquExpr_hasCallOrArith parseFloat jsonColumns l h
          rw [herr] at hl
          cases hl
        · exact h
      obtain ⟨err, herr⟩ := toGoquExpr_hasCallOrArith parseFloat jsonColumns r hr
      exact ⟨err, by simp [herr]⟩
  | .OrExpr l r, h => by
    unfold toGoquExpr
    cases hl : toGoquExpr parseFloat jsonColumns l with
    | error err => exact ⟨err, rfl⟩
    | ok pl =>
      have hr : hasCallOrArith r = true := by
        simp only [hasCallOrArith, Bool.or_eq_true] at h
        rcases h with h | h
        · obtain ⟨err, herr⟩ := toGoquExpr_hasCallOrArith parseFloat jsonColumns l h
          rw [herr] at hl
          cases hl
        · exact h
      obtain ⟨err, herr⟩ := toGoquExpr_hasCallOrArith parseFloat jsonColumns r hr
      exact ⟨err, by simp [herr]⟩
  | .ParenExpr e, h => by
    simpa [toGoquExpr] using
      toGoquExpr_hasCallOrArith parseFloat jsonColumns e
        (by simpa [hasCallOrArith] using h)
  | .NotExpr _, h => by simp [hasCallOrArith] at h
  | .ColName _, h => by simp [hasCallOrArith] at h
  | .SQLVal _ _, h => by simp [hasCallOrArith] at h
  | .NullVal, h => by simp [hasCallOrArith] at h
  | .BoolVal _, h => by simp [hasCallOrArith] at h
  | .ValTuple _, h => by simp [hasCallOrArith] at h
  | .FuncExpr _, h => by simp [hasCallOrArith] at h
  | .BinaryExpr _ _ _, h => by simp [hasCallOrArith] at h
  | .UnaryExpr _ _, h => by simp [hasCallOrArith] at h
  | .other _, h => by simp [hasCallOrArith] at h

/-- C12: an expression tree of `AND`, `OR`, parentheses and comparisons in
which some comparison has a function call or an arithmetic expression as its
left operand, its right operand or an element of its `IN` list never
translates: `toGoquExpr` returns an error. -/
theorem toGoquExpr_rejects_calls_and_arithmetic {F : Type} (parseFloat : Str → Option F)
    (jsonColumns : List Str) (e : Expr) (h : hasCallOrArith e = true) :
    ∃ err, toGoquExpr parseFloat jsonColumns e = .error err ∧
      ∀ p, toGoquExpr parseFloat jsonColumns e ≠ .ok p := by
  obtain ⟨err, herr⟩ := toGoquExpr_hasCallOrArith parseFloat jsonColumns e h
  exact ⟨err, herr, fun p hp => by rw [herr] at hp; cases hp⟩

theorem toGoquExpr_rejects_calls_and_arithmetic_witness :
    (∃ err, toGoquExpr noFloat ["meta".toList]
          (.ComparisonExpr GreaterThanStr (.FuncExpr "LENGTH".toList)
            (.SQLVal .IntVal "5".toList)) = .error err ∧
        ∀ p, toGoquExpr noFloat ["meta".toList]
          (.ComparisonExpr GreaterThanStr (.FuncExpr "LENGTH".toList)
            (.SQLVal .IntVal "5".toList)) ≠ .ok p) ∧
    (∃ err, toGoquExpr noFloat ["meta".toList]
          (.ComparisonExpr GreaterThanStr
            (.BinaryExpr "+".toList (.ColName "price".toList) (.ColName "tax".toList))
            (.SQLVal .IntVal "100".toList)) = .error err ∧
        ∀ p, toGoquExpr noFloat ["meta".toList]
          (.ComparisonExpr GreaterThanStr
            (.BinaryExpr "+".toList (.ColName "price".toList) (.ColName "tax".toList))
            (.SQLVal .IntVal "100".toList)) ≠ .ok p) :=
  ⟨toGoquExpr_rejects_calls_and_arithmetic noFloat ["meta".toList] _ (by decide),
   toGoquExpr_rejects_calls_and_arithmetic noFloat ["meta".toList] _ (by decide)⟩

/-- C13: `toGoquExpr` on `AND(l, r)` returns `And` of the two translations
when both sides translate, fails with the error of the left side when the left
side fails, and with the error of the right side when only the right side
fails; so it succeeds exactly when both sides do. The same holds for `OR`
with `Or`. -/
theorem toGoquExpr_and_or {F : Type} (parseFloat : Str → Option F)
    (jsonColumns : List Str) (l r : Expr) :
    (∀ pl pr, toGoquExpr parseFloat jsonColumns l = .ok pl →
        toGoquExpr parseFloat jsonColumns r = .ok pr →
        toGoquExpr parseFloat jsonColumns (.AndExpr l r) = .ok (.And pl pr) ∧
          toGoquExpr parseFloat jsonColumns (.OrExpr l r) = .ok (.Or pl pr)) ∧
      (∀ err, toGoquExpr parseFloat jsonColumns l = .error err →
        toGoquExpr parseFloat jsonColumns (.AndExpr l r) = .error err ∧
          toGoquExpr parseFloat jsonColumns (.OrExpr l r) = .error err) ∧
      (∀ pl err, toGoquExpr parseFloat jsonColumns l = .ok pl →
        toGoquExpr parseFloat jsonColumns r = .error err →
        toGoquExpr parseFloat jsonColumns (.AndExpr l r) = .error err ∧
          toGoquExpr parseFloat jsonColumns (.OrExpr l r) = .error err) ∧
      ((∃ p, toGoquExpr parseFloat jsonColumns (.AndExpr l r) = .ok p) ↔
        (∃ pl, toGoquExpr parseFloat jsonColumns l = .ok pl) ∧
          ∃ pr, toGoquExpr parseFloat jsonColumns r = .ok pr) ∧
      ((∃ p, toGoquExpr parseFloat jsonColumns (.OrExpr l r) = .ok p) ↔
        (∃ pl, toGoquExpr parseFloat jsonColumns l = .ok pl) ∧
          ∃ pr, toGoquExpr parseFloat jsonColumns r = .ok pr) := by
  refine ⟨?_, ?_, ?_, ?_, ?_⟩
  · intro pl pr hl hr
    simp [toGoquExpr, hl, hr]
  · intro err hl
    simp [toGoquExpr, hl]
  · intro pl err hl hr
    simp [toGoquExpr, hl, hr]
  · cases hl : toGoquExpr parseFloat jsonColumns l <;>
      cases hr : toGoquExpr parseFloat jsonColumns r <;>
      simp [toGoquExpr, hl, hr]
  · cases hl : toGoquExpr parseFloat jsonColumns l <;>
      cases hr : toGoquExpr parseFloat jsonColumns r <;>
      simp [toGoquExpr, hl, hr]

theorem toGoquExpr_and_or_witness :
    toGoquExpr noFloat []
        (.AndExpr
          (.ComparisonExpr GreaterThanStr (.ColName "age".toList) (.SQLVal .IntVal "18".toList))
          (.ComparisonExpr EqualStr (.ColName "status".toList)
            (.SQLVal .StrVal "active".toList)))
      = .ok (.And (.Gt "age".toList (.int 18))
          (.Eq "status".toList (.str "active".toList))) ∧
    toGoquExpr noFloat []
        (.OrExpr
          (.ComparisonExpr GreaterThanStr (.ColName "age".toList) (.ColName "nick".toList))
          (.ComparisonExpr EqualStr (.FuncExpr "f".toList) (.SQLVal .IntVal "1".toList)))
      = .error .columnNamesNotAllowed :=
  ⟨((toGoquExpr_and_or noFloat [] _ _).1 _ _ (by decide) (by decide)).1,
   ((toGoquExpr_and_or noFloat [] _ _).2.1 _ (by decide)).2⟩

/-- C14: parentheses are transparent: for every node `e` and every number `n`
of pairs of parentheses around it, `toGoquExpr` returns for the parenthesized
node what it returns for `e`, the same predicate or the same error. -/
theorem toGoquExpr_parens {F : Type} (parseFloat : Str → Option F)
    (jsonColumns : List Str) (e : Expr) (n : Nat) :
    toGoquExpr parseFloat jsonColumns (.ParenExpr e) = toGoquExpr parseFloat jsonColumns e ∧
      toGoquExpr parseFloat jsonColumns (parens n e) = toGoquExpr parseFloat jsonColumns e := by
  refine ⟨by simp [toGoquExpr], ?_⟩
  induction n with
  | zero => rfl
  | succ k ih => simpa [parens, toGoquExpr] using ih

/-- C15: for a comparison with a column reference on the left, a right-hand
side that coerces to a value, and an operator that is none of `=`, `!=`, `<`,
`>`, `<=`, `>=`, `LIKE`, `IN`, `handleComparison` fails with `unsupported
operator`, for a plain column and for a JSON path alike. -/
theorem handleComparison_unsupported_operator {F : Type} (parseFloat : Str → Option F)
    (jsonColumns : List Str) (operator colName : Str) (right : Expr) (v : Value F)
    (hop : operator ∉ supportedOperators)
    (hv : extractValue parseFloat jsonColumns right = .ok v) :
    handleComparison parseFloat jsonColumns operator (.ColName colName) right
      = .error (.unsupportedOperator operator) := by
  obtain ⟨t, b, ht⟩ := extractExpression_colName jsonColumns colName
  simp only [supportedOperators, List.mem_cons, List.mem_singleton, List.not_mem_nil,
    or_false, not_or] at hop
  obtain ⟨h1, h2, h3, h4, h5, h6, h7, h8⟩ := hop
  cases b <;> simp [handleComparison, ht, hv, h1, h2, h3, h4, h5, h6, h7, h8]

theorem handleComparison_unsupported_operator_witness :
    handleComparison noFloat ["meta".toList] NotLikeStr (.ColName "name".toList)
        (.SQLVal .StrVal "a%".toList)
      = .error (.unsupportedOperator NotLikeStr) ∧
    handleComparison noFloat ["meta".toList] RegexpStr (.ColName "meta__name".toList)
        (.SQLVal .StrVal "a.*".toList)
      = .error (.unsupportedOperator RegexpStr) :=
  ⟨handleComparison_unsupported_operator noFloat ["meta".toList] NotLikeStr "name".toList
      _ (.str "a%".toList) (by decide) (by decide),
   handleComparison_unsupported_operator noFloat ["meta".toList] RegexpStr
      "meta__name".toList _ (.str "a.*".toList) (by decide) (by decide)⟩

/-! ## The path codec: plain identifiers and exact column names -/

theorem matchAt_plain (s : Str) (hd : '.' ∉ s) (hb : '[' ∉ s) : matchAt s = none := by
  have hg : matchGroups 0 (s.drop (spanLen isWord s)) = 0 := by
    apply matchGroups_none
    intro x hx
    have hmem : x ∈ s := List.mem_of_mem_drop (List.mem_of_mem_head? hx)
    exact ⟨fun h => hd (h ▸ hmem), fun h => hb (h ▸ hmem)⟩
  simp [matchAt, hg]

/-- Text without `.` and `[` has no match and is copied. -/
theorem replaceAllFunc_plain : ∀ s : Str, '.' ∉ s → '[' ∉ s → replaceAllFunc 0 s = s
  | [], _, _ => rfl
  | c :: t, hd, hb => by
    have ih := replaceAllFunc_plain t (fun h => hd (List.mem_cons_of_mem _ h))
      (fun h => hb (List.mem_cons_of_mem _ h))
    simp only [replaceAllFunc, matchAt_plain (c :: t) hd hb, ih]

theorem reverseJsonPath_plain (name : Str) :
    ∀ jsonColumns : List Str,
      (∀ c ∈ jsonColumns, name ≠ c ∧ (c ++ sep).isPrefixOf name = false) →
      reverseJsonPath name jsonColumns = (name, [], false)
  | [], _ => rfl
  | c :: rest, h => by
    obtain ⟨h1, h2⟩ := h c (List.mem_cons_self _ _)
    simp only [reverseJsonPath, h2, h1, if_false, Bool.false_eq_true]
    exact reverseJsonPath_plain name rest (fun x hx => h x (List.mem_cons_of_mem _ hx))

/-- C16 (as stated, refuted): the identifier `meta__name` has no `.` and no
`[`, is left unchanged by `preprocessJsonPaths` and is not a registered JSON
column, and with the JSON column `meta` it is classified as a JSON path, the
path `name` of `meta`. -/
theorem plain_identifier_collides :
    preprocessJsonPaths "meta__name".toList = "meta__name".toList ∧
      "meta__name".toList ∉ ["meta".toList] ∧
      reverseJsonPath "meta__name".toList ["meta".toList]
        = ("meta".toList, "name".toList, true) ∧
      extractExpression ["meta".toList] (.ColName "meta__name".toList)
        = .ok ("JSONExtractRaw(meta, '$.name')".toList, true) := by
  decide

/-- C16 (amended): an identifier without `.` and `[` is left unchanged by
`preprocessJsonPaths`; and when it is not a registered JSON column name and
does not start with a registered JSON column name followed by `__`, it is
classified as a plain column by `reverseJsonPath` and by
`extractExpression`. -/
theorem plain_identifier_classified (jsonColumns : List Str) (name : Str)
    (hd : '.' ∉ name) (hb : '[' ∉ name)
    (h : ∀ c ∈ jsonColumns, name ≠ c ∧ (c ++ sep).isPrefixOf name = false) :
    preprocessJsonPaths name = name ∧
      reverseJsonPath name jsonColumns = (name, [], false) ∧
      extractExpression jsonColumns (.ColName name) = .ok (name, false) := by
  have hr := reverseJsonPath_plain name jsonColumns h
  refine ⟨replaceAllFunc_plain name hd hb, hr, ?_⟩
  exact extractExpression_plain jsonColumns name (by rw [hr])

theorem plain_identifier_classified_witness :
    preprocessJsonPaths "metadata_name".toList = "metadata_name".toList ∧
      reverseJsonPath "metadata_name".toList ["meta".toList, "data".toList]
        = ("metadata_name".toList, [], false) ∧
      extractExpression ["meta".toList, "data".toList] (.ColName "metadata_name".toList)
        = .ok ("metadata_name".toList, false) :=
  plain_identifier_classified ["meta".toList, "data".toList] "metadata_name".toList
    (by decide) (by decide) (by decide)

/-- C17 (the code at the failing input): `meta[0].name` is rewritten to
`meta__0__name`, and `reverseJsonPath` decodes it to the path `name`: the
leading token `0` is lost, the path is not `0.name`. -/
theorem reverseJsonPath_drops_leading_index :
    preprocessJsonPaths "meta[0].name".toList = "meta__0__name".toList ∧
      reverseJsonPath "meta__0__name".toList ["meta".toList]
        = ("meta".toList, "name".toList, true) ∧
      reverseJsonPath "meta__0__name".toList ["meta".toList]
        ≠ ("meta".toList, "0.name".toList, true) := by
  decide

theorem isPrefixOf_self_sep (name : Str) : (name ++ sep).isPrefixOf name = false := by
  rw [Bool.eq_false_iff]
  intro h
  rw [List.isPrefixOf_iff_prefix] at h
  have := h.length_le
  simp [sep] at this

theorem reverseJsonPath_exact (name : Str) (after : List Str) :
    ∀ before : List Str, (∀ c ∈ before, (c ++ sep).isPrefixOf name = false) →
      reverseJsonPath name (before ++ name :: after) = (name, [], true)
  | [], _ => by
    simp [reverseJsonPath, isPrefixOf_self_sep]
  | c :: rest, h => by
    have h1 := h c (List.mem_cons_self _ _)
    by_cases hc : name = c
    · subst hc
      simp [reverseJsonPath, h1]
    · have ih := reverseJsonPath_exact name after rest
        (fun x hx => h x (List.mem_cons_of_mem _ hx))
      simp only [List.cons_append, reverseJsonPath, h1, hc, if_false, Bool.false_eq_true]
      exact ih

/-- C18 (as stated, refuted): with the list `["a", "a__b"]` the identifier
`a__b`, equal to the second column name, is decoded as the path `b` of the
column `a`. -/
theorem exact_column_shadowed :
    "a__b".toList ∈ ["a".toList, "a__b".toList] ∧
      reverseJsonPath "a__b".toList ["a".toList, "a__b".toList]
        = ("a".toList, "b".toList, true) ∧
      reverseJsonPath "a__b".toList ["a".toList, "a__b".toList]
        ≠ ("a__b".toList, [], true) := by
  decide

/-- C18 (amended): for an identifier equal to a column name of the list, when
no column name that comes before it in the list, followed by `__`, is a prefix
of the identifier, `reverseJsonPath` returns that column name, the empty path
and `true`, whatever the column names that come after it. -/
theorem exact_column_match (before after : List Str) (name : Str)
    (h : ∀ c ∈ before, (c ++ sep).isPrefixOf name = false) :
    reverseJsonPath name (before ++ name :: after) = (name, [], true) :=
  reverseJsonPath_exact name after before h

theorem exact_column_match_witness :
    reverseJsonPath "a__b".toList (["a__b__c".toList, "b".toList] ++ "a__b".toList ::
        ["a".toList])
      = ("a__b".toList, [], true) :=
  exact_column_match ["a__b__c".toList, "b".toList] ["a".toList] "a__b".toList (by decide)

/-! ## The path codec: the folding rule -/

theorem joinDot_cons (a : Str) (b : List Str) (hb : b ≠ []) :
    joinDot (a :: b) = a ++ '.' :: joinDot b := by
  cases b with
  | nil => exact absurd rfl hb
  | cons x t => rfl

theorem joinDot_snoc : ∀ (acc : List Str) (x : Str), acc ≠ [] →
    joinDot (acc ++ [x]) = joinDot acc ++ '.' :: x
  | [], _, h => absurd rfl h
  | [a], x, _ => by simp [joinDot]
  | a :: b :: t, x, _ => by
    have ih := joinDot_snoc (b :: t) x (by simp)
    rw [List.cons_append, joinDot_cons a _ (by simp), ih, joinDot_cons a _ (by simp)]
    simp

theorem joinDot_snoc_append : ∀ (acc : List Str) (l y : Str),
    joinDot (acc ++ [l ++ y]) = joinDot (acc ++ [l]) ++ y
  | [], l, y => by simp [joinDot]
  | a :: t, l, y => by
    have ih := joinDot_snoc_append t l y
    rw [List.cons_append, joinDot_cons a _ (by simp), ih, List.cons_append,
      joinDot_cons a _ (by simp)]
    simp

/-- The loop of `reverseJsonPath`, once a first element is there, builds the
reference reconstruction with the tokens `Atoi` accepts as indices. -/
theorem joinDot_foldl_foldPart :
    ∀ (toks : List Str) (acc : List Str) (l : Str),
      joinDot (toks.foldl foldPart (acc ++ [l]))
        = joinDot (acc ++ [l]) ++ refTail (fun t => (atoi t).isSome) toks
  | [], acc, l => by simp [refTail]
  | t :: rest, acc, l => by
    by_cases ht : (atoi t).isSome = true
    · have hstep : foldPart (acc ++ [l]) t = acc ++ [l ++ ('[' :: t ++ [']'])] := by
        simp [foldPart, ht]
      rw [List.foldl_cons, hstep, joinDot_foldl_foldPart rest acc _, joinDot_snoc_append]
      simp [refTail, ht]
    · have hstep : foldPart (acc ++ [l]) t = (acc ++ [l]) ++ [t] := by
        simp [foldPart, ht]
      rw [List.foldl_cons, hstep, joinDot_foldl_foldPart rest (acc ++ [l]) t,
        joinDot_snoc _ _ (by simp)]
      simp [refTail, ht]

theorem joinDot_foldl_refPath (toks : List Str)
    (h : ∀ t ∈ toks.head?, (atoi t).isSome = false) :
    joinDot (toks.foldl foldPart []) = refPath (fun t => (atoi t).isSome) toks := by
  cases toks with
  | nil => rfl
  | cons t rest =>
    have ht := h t (by simp)
    have hstep : foldPart [] t = [] ++ [t] := by simp [foldPart, ht]
    rw [List.foldl_cons, hstep, joinDot_foldl_foldPart rest [] t]
    simp [refPath, joinDot]

theorem reverseJsonPath_first (c J : Str) (after : List Str) :
    ∀ before : List Str,
      (∀ c' ∈ before, (c' ++ sep).isPrefixOf (c ++ sep ++ J) = false ∧ c ++ sep ++ J ≠ c') →
      reverseJsonPath (c ++ sep ++ J) (before ++ c :: after)
        = (c, joinDot ((splitSep J).foldl foldPart []), true)
  | [], _ => by
    have hpre : (c ++ sep).isPrefixOf (c ++ sep ++ J) = true := by
      rw [List.isPrefixOf_iff_prefix]
      exact List.prefix_append _ _
    simp only [List.nil_append, reverseJsonPath, hpre, if_true, List.drop_left]
  | c' :: rest, h => by
    obtain ⟨h1, h2⟩ := h c' (List.mem_cons_self _ _)
    simp only [List.cons_append, reverseJsonPath, h1, h2, if_false, Bool.false_eq_true]
    exact reverseJsonPath_first c J after rest
      (fun x hx => h x (List.mem_cons_of_mem _ hx))

theorem isNumeral_iff (t : Str) :
    isNumeral t = true ↔ t ≠ [] ∧ t.all isDigit = true := by
  simp [isNumeral]

theorem parseInt64_body (neg : Bool) (body : Str) :
    (if body = [] ∨ ¬ body.all isDigit = true then (none : Option Int)
      else if neg = true then
        (if digitsVal body ≤ 2 ^ 63 then some (-(digitsVal body : Int)) else none)
      else (if digitsVal body < 2 ^ 63 then some (digitsVal body : Int) else none))
    = if isNumeral body = true ∧
          -(2 : Int) ^ 63 ≤ (if neg = true then -(digitsVal body : Int) else digitsVal body) ∧
          (if neg = true then -(digitsVal body : Int) else digitsVal body) ≤ 2 ^ 63 - 1
      then some (if neg = true then -(digitsVal body : Int) else digitsVal body)
      else none := by
  by_cases hn : isNumeral body = true
  · obtain ⟨h1, h2⟩ := (isNumeral_iff body).mp hn
    have hc : ¬ (body = [] ∨ ¬ body.all isDigit = true) := by
      intro h
      rcases h with h | h
      · exact h1 h
      · exact h h2
    rw [if_neg hc]
    cases neg
    · simp only [Bool.false_eq_true, if_false, hn, true_and]
      by_cases hv : digitsVal body < 2 ^ 63
      · rw [if_pos hv, if_pos (by constructor <;> omega)]
      · rw [if_neg hv, if_neg (by intro h; omega)]
    · simp only [if_true, hn, true_and]
      by_cases hv : digitsVal body ≤ 2 ^ 63
      · rw [if_pos hv, if_pos (by constructor <;> omega)]
      · rw [if_neg hv, if_neg (by intro h; omega)]
  · have hc : body = [] ∨ ¬ body.all isDigit = true := by
      by_contra h
      push_neg at h
      exact hn ((isNumeral_iff body).mpr ⟨h.1, h.2⟩)
    rw [if_pos hc, if_neg (fun h => hn h.1)]

/-- `ParseInt` accepts the optionally signed decimal numerals whose value is
in the signed 64-bit range, and returns that value. -/
theorem parseInt64_eq (s : Str) :
    parseInt64 s =
      if isSignedNumeral s = true ∧ -(2 : Int) ^ 63 ≤ signedVal s ∧ signedVal s ≤ 2 ^ 63 - 1
      then some (signedVal s) else none := by
  cases s with
  | nil => simp [parseInt64, isSignedNumeral]
  | cons c t =>
    by_cases hm : c = '-'
    · subst hm
      have := parseInt64_body true t
      simpa [parseInt64, isSignedNumeral, signedVal] using this
    · by_cases hp : c = '+'
      · subst hp
        have := parseInt64_body false t
        simpa [parseInt64, isSignedNumeral, signedVal] using this
      · have := parseInt64_body false (c :: t)
        simpa [parseInt64, isSignedNumeral, signedVal, hm, hp] using this

/-- C19 (as stated, refuted): the token `-1` is not a non-negative decimal
integer, and `reverseJsonPath` folds it, where the reference reconstruction
joins it with a dot; the token `99999999999999999999` is one, and
`reverseJsonPath` joins it with a dot, where the reference reconstruction
folds it. -/
theorem folding_not_by_numerals :
    isNumeral "-1".toList = false ∧
      reverseJsonPath "meta__a__-1".toList ["meta".toList]
        = ("meta".toList, "a[-1]".toList, true) ∧
      refPath isNumeral (splitSep "a__-1".toList) = "a.-1".toList ∧
    isNumeral "99999999999999999999".toList = true ∧
      reverseJsonPath "meta__a__99999999999999999999".toList ["meta".toList]
        = ("meta".toList, "a.99999999999999999999".toList, true) ∧
      refPath isNumeral (splitSep "a__99999999999999999999".toList)
        = "a[99999999999999999999]".toList := by
  decide

/-- C19 (amended): for a JSON column `c` that is the first of the list to match
the identifier `c__t1__...__tn`, whose first token `t1` is not accepted by
`Atoi`, the path `reverseJsonPath` returns is the reference reconstruction of
the token list in which a token is folded into the preceding field as `[ti]`
exactly when `strconv.Atoi` accepts it, every other token being a field name
joined with `.`; and `Atoi` accepts exactly the decimal numerals with an
optional sign whose value is in the signed 64-bit range. -/
theorem folding_by_atoi (before after : List Str) (c J : Str)
    (hfirst : ∀ c' ∈ before,
      (c' ++ sep).isPrefixOf (c ++ sep ++ J) = false ∧ c ++ sep ++ J ≠ c')
    (hhead : ∀ t ∈ (splitSep J).head?, (atoi t).isSome = false) :
    reverseJsonPath (c ++ sep ++ J) (before ++ c :: after)
        = (c, refPath (fun t => (atoi t).isSome) (splitSep J), true) ∧
      ∀ t : Str, (atoi t).isSome = true ↔
        isSignedNumeral t = true ∧ -(2 : Int) ^ 63 ≤ signedVal t ∧
          signedVal t ≤ 2 ^ 63 - 1 := by
  constructor
  · rw [reverseJsonPath_first c J after before hfirst, joinDot_foldl_refPath _ hhead]
  · intro t
    rw [atoi, parseInt64_eq]
    split_ifs with h
    · simpa using h
    · simpa using h

theorem folding_by_atoi_witness :
    reverseJsonPath ("meta".toList ++ sep ++ "a__0__-1__b__99999999999999999999".toList)
        (["data".toList] ++ "meta".toList :: [])
      = ("meta".toList,
          refPath (fun t => (atoi t).isSome)
            (splitSep "a__0__-1__b__99999999999999999999".toList), true) ∧
    refPath (fun t => (atoi t).isSome)
        (splitSep "a__0__-1__b__99999999999999999999".toList)
      = "a[0][-1].b.99999999999999999999".toList :=
  ⟨(folding_by_atoi ["data".toList] [] "meta".toList
      "a__0__-1__b__99999999999999999999".toList (by decide) (by decide)).1,
   by decide⟩

/-! ## Integer literals -/

theorem foldl_digits (ds : Str) :
    ∀ a : Nat, ds.foldl (fun n c => 10 * n + (c.toNat - '0'.toNat)) a
      = a * 10 ^ ds.length + digitsVal ds := by
  induction ds with
  | nil => intro a; simp [digitsVal]
  | cons d t ih =>
    intro a
    simp only [List.foldl_cons, digitsVal, List.length_cons]
    rw [ih, ih (10 * 0 + (d.toNat - '0'.toNat))]
    ring

theorem digitsVal_cons (d : Char) (ds : Str) :
    digitsVal (d :: ds) = (d.toNat - '0'.toNat) * 10 ^ ds.length + digitsVal ds := by
  have := foldl_digits ds (10 * 0 + (d.toNat - '0'.toNat))
  simpa [digitsVal] using this

theorem digitChar_val : ∀ k, k < 10 →
    (Nat.digitChar k).toNat - '0'.toNat = k ∧ isDigit (Nat.digitChar k) = true := by
  decide

theorem digitsVal_toDigitsCore :
    ∀ (fuel n : Nat) (ds : Str), n < fuel → (∀ x ∈ ds, isDigit x = true) →
      digitsVal (Nat.toDigitsCore 10 fuel n ds) = n * 10 ^ ds.length + digitsVal ds ∧
        (∀ x ∈ Nat.toDigitsCore 10 fuel n ds, isDigit x = true) ∧
        Nat.toDigitsCore 10 fuel n ds ≠ []
  | 0, n, ds, h, _ => by omega
  | fuel + 1, n, ds, h, hds => by
    obtain ⟨hd1, hd2⟩ := digitChar_val (n % 10) (Nat.mod_lt _ (by decide))
    have hall : ∀ x ∈ Nat.digitChar (n % 10) :: ds, isDigit x = true := by
      intro x hx
      rcases List.mem_cons.mp hx with hx | hx
      · rw [hx]; exact hd2
      · exact hds x hx
    unfold Nat.toDigitsCore
    by_cases hz : n / 10 = 0
    · simp only [hz, if_true]
      refine ⟨?_, hall, by simp⟩
      rw [digitsVal_cons, hd1]
      have : n % 10 = n := by omega
      rw [this]
    · simp only [hz, if_false]
      obtain ⟨ih1, ih2, ih3⟩ := digitsVal_toDigitsCore fuel (n / 10)
        (Nat.digitChar (n % 10) :: ds) (by omega) hall
      refine ⟨?_, ih2, ih3⟩
      rw [ih1, digitsVal_cons, hd1, List.length_cons, pow_succ]
      have : n = 10 * (n / 10) + n % 10 := by omega
      nth_rewrite 3 [this]
      ring

/-- The decimal numeral of a natural number is a numeral with that value. -/
theorem digitsVal_toDigits (n : Nat) :
    isNumeral (Nat.toDigits 10 n) = true ∧ digitsVal (Nat.toDigits 10 n) = n := by
  obtain ⟨h1, h2, h3⟩ := digitsVal_toDigitsCore (n + 1) n [] (by omega) (by simp)
  refine ⟨(isNumeral_iff _).mpr ⟨h3, by simpa [Nat.toDigits] using h2⟩, ?_⟩
  simpa [Nat.toDigits, digitsVal] using h1

theorem extractValue_intVal {F : Type} (parseFloat : Str → Option F)
    (jsonColumns : List Str) (text : Str) :
    extractValue parseFloat jsonColumns (.SQLVal .IntVal text)
      = if isSignedNumeral text = true ∧ -(2 : Int) ^ 63 ≤ signedVal text ∧
            signedVal text ≤ 2 ^ 63 - 1
        then .ok (.int (signedVal text)) else .error (.invalidInteger text) := by
  simp only [extractValue, parseInt64_eq]
  split_ifs <;> rfl

theorem signedVal_decimal (z : Int) :
    isSignedNumeral (decimal z) = true ∧ signedVal (decimal z) = z := by
  obtain ⟨h1, h2⟩ := digitsVal_toDigits z.natAbs
  by_cases hz : z < 0
  · simp only [decimal, hz, if_true, isSignedNumeral, signedVal, true_or, h1, h2, true_and]
    omega
  · obtain ⟨hne, hall⟩ := (isNumeral_iff _).mp h1
    simp only [decimal, hz, if_false]
    cases hd : Nat.toDigits 10 z.natAbs with
    | nil => exact absurd hd hne
    | cons c t =>
      rw [hd] at h1 h2 hall
      have hc : isDigit c = true := by
        simp only [List.all_cons, Bool.and_eq_true] at hall
        exact hall.1
      have hm : c ≠ '-' := by
        intro h
        subst h
        revert hc
        decide
      have hp : c ≠ '+' := by
        intro h
        subst h
        revert hc
        decide
      simp only [isSignedNumeral, signedVal, hm, hp, or_self, if_false, h1, h2, true_and]
      omega

/-- C20: for an integer literal whose text is an optionally signed decimal
numeral, `extractValue` returns the integer with that value when it lies in
`[-2^63, 2^63 - 1]` and fails with `invalid integer value` otherwise; it also
fails so for a text that is no such numeral; a value it returns is the value of
the text, within the range; and the decimal numeral of every integer of the
range coerces to that integer. -/
theorem extractValue_integer {F : Type} (parseFloat : Str → Option F)
    (jsonColumns : List Str) (text : Str) :
    (isSignedNumeral text = true → -(2 : Int) ^ 63 ≤ signedVal text →
        signedVal text ≤ 2 ^ 63 - 1 →
        extractValue parseFloat jsonColumns (.SQLVal .IntVal text)
          = .ok (.int (signedVal text))) ∧
      (isSignedNumeral text = true →
        (signedVal text < -(2 : Int) ^ 63 ∨ 2 ^ 63 - 1 < signedVal text) →
        extractValue parseFloat jsonColumns (.SQLVal .IntVal text)
          = .error (.invalidInteger text)) ∧
      (isSignedNumeral text = false →
        extractValue parseFloat jsonColumns (.SQLVal .IntVal text)
          = .error (.invalidInteger text)) ∧
      (∀ v, extractValue parseFloat jsonColumns (.SQLVal .IntVal text) = .ok v →
        v = .int (signedVal text) ∧ -(2 : Int) ^ 63 ≤ signedVal text ∧
          signedVal text ≤ 2 ^ 63 - 1) ∧
      (∀ z : Int, -(2 : Int) ^ 63 ≤ z → z ≤ 2 ^ 63 - 1 →
        extractValue parseFloat jsonColumns (.SQLVal .IntVal (decimal z))
          = .ok (.int z)) := by
  refine ⟨?_, ?_, ?_, ?_, ?_⟩
  · intro h1 h2 h3
    rw [extractValue_intVal, if_pos ⟨h1, h2, h3⟩]
  · intro _ h2
    rw [extractValue_intVal, if_neg (by intro h; omega)]
  · intro h1
    rw [extractValue_intVal, if_neg (by intro h; rw [h1] at h; exact absurd h.1 (by simp))]
  · intro v hv
    rw [extractValue_intVal] at hv
    split_ifs at hv with h
    simp only [Except.ok.injEq] at hv
    exact ⟨hv.symm, h.2.1, h.2.2⟩
  · intro z h1 h2
    obtain ⟨hs, hval⟩ := signedVal_decimal z
    rw [extractValue_intVal, if_pos ⟨hs, by rw [hval]; exact h1, by rw [hval]; exact h2⟩, hval]

theorem extractValue_integer_witness :
    extractValue noFloat [] (.SQLVal .IntVal "-9223372036854775808".toList)
      = .ok (.int (signedVal "-9223372036854775808".toList)) ∧
    signedVal "-9223372036854775808".toList = -9223372036854775808 ∧
    extractValue noFloat [] (.SQLVal .IntVal "9223372036854775808".toList)
      = .error (.invalidInteger "9223372036854775808".toList) ∧
    extractValue noFloat [] (.SQLVal .IntVal "12a".toList)
      = .error (.invalidInteger "12a".toList) ∧
    extractValue noFloat [] (.SQLVal .IntVal (decimal 42)) = .ok (.int 42) :=
  ⟨(extractValue_integer noFloat [] "-9223372036854775808".toList).1 (by decide)
      (by decide) (by decide),
   by decide,
   (extractValue_integer noFloat [] "9223372036854775808".toList).2.1 (by decide)
      (Or.inr (by decide)),
   (extractValue_integer noFloat [] "12a".toList).2.2.1 (by decide),
   (extractValue_integer noFloat [] "0".toList).2.2.2.2 42 (by decide) (by decide)⟩

/-! ## The translator: the first failure -/

theorem extractValue_columnError {F : Type} (parseFloat : Str → Option F)
    (jsonColumns : List Str) (e : Expr) :
    extractValue parseFloat jsonColumns e = .error .columnNamesNotAllowed ↔
      isColName e = true := by
  constructor
  · intro h
    cases e with
    | ColName n => rfl
    | SQLVal t val =>
      cases t <;> simp only [extractValue] at h
      · cases h
      · split at h <;> cases h
      · split at h <;> cases h
      all_goals cases h
    | _ => simp [extractValue] at h
  · exact extractValue_of_isColName parseFloat jsonColumns e

theorem extractTuple_columnError {F : Type} (parseFloat : Str → Option F)
    (jsonColumns : List Str) :
    ∀ exprs : List Expr,
      extractTuple parseFloat jsonColumns exprs = .error .columnNamesNotAllowed ↔
        firstBadIsColumn parseFloat jsonColumns exprs = true
  | [] => by simp [extractTuple, firstBadIsColumn]
  | e :: rest => by
    have ih := extractTuple_columnError parseFloat jsonColumns rest
    have hv := extractValue_columnError parseFloat jsonColumns e
    unfold extractTuple firstBadIsColumn
    cases he : extractValue parseFloat jsonColumns e with
    | error err =>
      rw [he] at hv
      simpa using hv
    | ok v =>
      simp only
      cases hr : extractTuple parseFloat jsonColumns rest with
      | error err =>
        rw [hr] at ih
        simpa using ih
      | ok vs =>
        rw [hr] at ih
        simp only [false_iff] at ih ⊢
        simpa using ih

theorem extractInValues_columnError {F : Type} (parseFloat : Str → Option F)
    (jsonColumns : List Str) :
    ∀ e : Expr,
      extractInValues parseFloat jsonColumns e = .error .columnNamesNotAllowed ↔
        inListColumnFirst parseFloat jsonColumns e = true
  | .ValTuple exprs => by
    simpa [extractInValues, inListColumnFirst] using
      extractTuple_columnError parseFloat jsonColumns exprs
  | .ParenExpr e => by
    simpa [extractInValues, inListColumnFirst] using
      extractInValues_columnError parseFloat jsonColumns e
  | .AndExpr _ _ => by
    simp only [inListColumnFirst, extractInValues]
    split <;> simp
  | .OrExpr _ _ => by
    simp only [inListColumnFirst, extractInValues]
    split <;> simp
  | .NotExpr _ => by
    simp only [inListColumnFirst, extractInValues]
    split <;> simp
  | .ComparisonExpr _ _ _ => by
    simp only [inListColumnFirst, extractInValues]
    split <;> simp
  | .ColName _ => by
    simp only [inListColumnFirst, extractInValues]
    split <;> simp
  | .SQLVal _ _ => by
    simp only [inListColumnFirst, extractInValues]
    split <;> simp
  | .NullVal => by
    simp only [inListColumnFirst, extractInValues]
    split <;> simp
  | .BoolVal _ => by
    simp only [inListColumnFirst, extractInValues]
    split <;> simp
  | .FuncExpr _ => by
    simp only [inListColumnFirst, extractInValues]
    split <;> simp
  | .BinaryExpr _ _ _ => by
    simp only [inListColumnFirst, extractInValues]
    split <;> simp
  | .UnaryExpr _ _ => by
    simp only [inListColumnFirst, extractInValues]
    split <;> simp
  | .other _ => by
    simp only [inListColumnFirst, extractInValues]
    split <;> simp

theorem extractExpression_not_columnError (jsonColumns : List Str) (e : Expr) :
    extractExpression jsonColumns e ≠ .error .columnNamesNotAllowed := by
  cases e with
  | ColName n =>
    obtain ⟨t, b, h⟩ := extractExpression_colName jsonColumns n
    rw [h]
    simp
  | _ => simp [extractExpression]

theorem handleComparison_columnError {F : Type} (parseFloat : Str → Option F)
    (jsonColumns : List Str) (operator : Str) (left right : Expr) :
    handleComparison parseFloat jsonColumns operator left right
        = .error .columnNamesNotAllowed ↔
      (isColName left &&
        (if operator = InStr then inListColumnFirst parseFloat jsonColumns right
         else isColName right)) = true := by
  unfold handleComparison
  cases hl : extractExpression jsonColumns left with
  | error err =>
    have hne : err ≠ .columnNamesNotAllowed := by
      intro h
      rw [h] at hl
      exact extractExpression_not_columnError jsonColumns left hl
    have hcol : isColName left = false := by
      cases left with
      | ColName n =>
        obtain ⟨t, b, h⟩ := extractExpression_colName jsonColumns n
        rw [h] at hl
        cases hl
      | _ => rfl
    simp [hne, hcol]
  | ok lb =>
    obtain ⟨leftExpr, leftIsJson⟩ := lb
    have hcol : isColName left = true := by
      cases left with
      | ColName n => rfl
      | _ => simp [extractExpression] at hl
    simp only [hcol, Bool.true_and]
    by_cases hop : operator = InStr
    · simp only [hop, if_true]
      have hin := extractInValues_columnError parseFloat jsonColumns right
      cases hr : extractInValues parseFloat jsonColumns right with
      | error err =>
        rw [hr] at hin
        simpa using hin
      | ok vs =>
        rw [hr] at hin
        simp at hin
        cases leftIsJson <;> simp [hin]
    · simp only [hop, if_false]
      have hv := extractValue_columnError parseFloat jsonColumns right
      cases hr : extractValue parseFloat jsonColumns right with
      | error err =>
        rw [hr] at hv
        simpa using hv
      | ok rv =>
        rw [hr] at hv
        have hfalse : isColName right = false := by simpa using hv
        rw [hfalse]
        simp only [Bool.false_eq_true, iff_false]
        cases leftIsJson
        · simp only [Bool.false_eq_true, if_false]
          split_ifs
          all_goals first
            | (simp; done)
            | (cases rv <;> simp)
        · simp only [if_true]
          split_ifs <;> simp

theorem toGoquExpr_columnError {F : Type} (parseFloat : Str → Option F)
    (jsonColumns : List Str) :
    ∀ e : Expr,
      toGoquExpr parseFloat jsonColumns e = .error .columnNamesNotAllowed ↔
        columnRejectedFirst parseFloat jsonColumns e = true
  | .ComparisonExpr operator left right => by
    simpa [toGoquExpr, columnRejectedFirst] using
      handleComparison_columnError parseFloat jsonColumns operator left right
  | .AndExpr l r => by
    have ihl := toGoquExpr_columnError parseFloat jsonColumns l
    have ihr := toGoquExpr_columnError parseFloat jsonColumns r
    unfold toGoquExpr columnRejectedFirst
    cases hl : toGoquExpr parseFloat jsonColumns l with
    | error err =>
      rw [hl] at ihl
      simpa using ihl
    | ok pl =>
      cases hr : toGoquExpr parseFloat jsonColumns r with
      | error err =>
        rw [hr] at ihr
        simpa using ihr
      | ok pr =>
        rw [hr] at ihr
        simpa using ihr
  | .OrExpr l r => by
    have ihl := toGoquExpr_columnError parseFloat jsonColumns l
    have ihr := toGoquExpr_columnError parseFloat jsonColumns r
    unfold toGoquExpr columnRejectedFirst
    cases hl : toGoquExpr parseFloat jsonColumns l with
    | error err =>
      rw [hl] at ihl
      simpa using ihl
    | ok pl =>
      cases hr : toGoquExpr parseFloat jsonColumns r with
      | error err =>
        rw [hr] at ihr
        simpa using ihr
      | ok pr =>
        rw [hr] at ihr
        simpa using ihr
  | .ParenExpr e => by
    simpa [toGoquExpr, columnRejectedFirst] using
      toGoquExpr_columnError parseFloat jsonColumns e
  | .NotExpr _ => by simp [toGoquExpr, columnRejectedFirst]
  | .ColName _ => by simp [toGoquExpr, columnRejectedFirst]
  | .SQLVal _ _ => by simp [toGoquExpr, columnRejectedFirst]
  | .NullVal => by simp [toGoquExpr, columnRejectedFirst]
  | .BoolVal _ => by simp [toGoquExpr, columnRejectedFirst]
  | .ValTuple _ => by simp [toGoquExpr, columnRejectedFirst]
  | .FuncExpr _ => by simp [toGoquExpr, columnRejectedFirst]
  | .BinaryExpr _ _ _ => by simp [toGoquExpr, columnRejectedFirst]
  | .UnaryExpr _ _ => by simp [toGoquExpr, columnRejectedFirst]
  | .other _ => by simp [toGoquExpr, columnRejectedFirst]

/-- C4 (amended): an expression tree in which some comparison has a column
reference as its right-hand side or as an element of its `IN` list never
translates; and for every expression tree the error is `column names are not
allowed as values` exactly when such a column reference is the first thing
translation fails on: every operand of `AND` and `OR` before the comparison
translates, the comparison has a column reference on the left, and the column
reference is its right-hand side under an operator other than `IN`, or the
first element of its `IN` tuple that does not coerce. -/
theorem toGoquExpr_column_value_fails {F : Type} (parseFloat : Str → Option F)
    (jsonColumns : List Str) (e : Expr) :
    (hasColumnAsValue e = true →
        ∃ err, toGoquExpr parseFloat jsonColumns e = .error err) ∧
      (toGoquExpr parseFloat jsonColumns e = .error .columnNamesNotAllowed ↔
        columnRejectedFirst parseFloat jsonColumns e = true) :=
  ⟨toGoquExpr_hasColumnAsValue parseFloat jsonColumns e,
   toGoquExpr_columnError parseFloat jsonColumns e⟩

theorem toGoquExpr_column_value_fails_witness :
    (∃ err, toGoquExpr noFloat ["meta".toList]
        (.AndExpr
          (.ComparisonExpr GreaterThanStr (.FuncExpr "LENGTH".toList)
            (.SQLVal .IntVal "5".toList))
          (.ComparisonExpr EqualStr (.ColName "id".toList) (.ColName "nick".toList)))
      = .error err) ∧
    toGoquExpr noFloat ["meta".toList]
        (.AndExpr
          (.ComparisonExpr EqualStr (.ColName "id".toList) (.SQLVal .IntVal "1".toList))
          (.ParenExpr
            (.OrExpr
              (.ComparisonExpr InStr (.ColName "role".toList)
                (.ValTuple [.SQLVal .StrVal "admin".toList, .ColName "nick".toList,
                  .FuncExpr "f".toList]))
              (.ComparisonExpr LessThanStr (.ColName "meta__age".toList)
                (.SQLVal .IntVal "3".toList)))))
      = .error .columnNamesNotAllowed :=
  ⟨(toGoquExpr_column_value_fails noFloat ["meta".toList] _).1 (by decide),
   (toGoquExpr_column_value_fails noFloat ["meta".toList] _).2.mpr (by decide)⟩

end Togoquexpr
